import Mathlib

/-!
# Verification of the DocuGenius word processor core

This file gives a shallow embedding, in Lean 4, of the two core subsystems of
the DocuGenius browser word processor:

* the pagination/layout-balancing engine (`balanceFromPage` and its helpers in
  the pagination editor component), and
* the DOCX codec (`parseDocxFile` / `saveToDocx` in `services/docxService.ts`),

together with theorems about the behaviour that the natural-language
specification ascribes to them.

Modelling conventions:

* The DOM measurement oracle (`scrollHeight` / `clientHeight`) is abstracted as
  an arbitrary height function `H : Page → Nat` applied to a page's content
  node list, and a single box height `C : Nat` (all pages share the fixed
  210mm × 297mm box); theorems quantify over `H` and `C`.
* A content block node is abstracted by the observations the engine makes of
  it: its serialized markup (`innerHTML` contribution), its leaf text
  characters (`textContent`), and whether it contains an `img` or `table`
  descendant (`querySelector('img, table')`).
* React state updates (`setPages`) requested during a balance invocation take
  effect at the next render; the model's outcome records both the page list
  that the DOM shows at the time the engine reads it back (`domPages`) and the
  page list after the requested state update is applied (`pages`).
* JavaScript numbers are modelled as rationals (`ℚ`), `Math.round` as
  `⌊x + 1/2⌋` (round half toward positive infinity), and machine text as
  Lean `String` / `List Char`.
-/

namespace Pagination

/-- A content block node hosted by a page, abstracted by the observations the
balancing engine makes of it: its serialized markup (`innerHTML`), its leaf
text characters (`textContent`), and whether an `img` or `table` descendant
exists (`querySelector('img, table')`). -/
structure BlockNode where
  markup : String
  text : List Char
  hasImgTable : Bool
deriving DecidableEq, Repr

/-- A page's content: the list of block nodes currently hosted by its
`.page-content` element, in document order. -/
abbrev Page := List BlockNode

/-- JavaScript whitespace, as far as `String.prototype.trim` is concerned
(restricted to the ASCII whitespace characters that can occur in this
document model). -/
def isJsWS (c : Char) : Bool :=
  c == ' ' || c == '\t' || c == '\n' || c == '\r' || c == '\x0b' || c == '\x0c'

/-- Model of JavaScript `String.prototype.trim`: drop leading and trailing
whitespace characters. -/
def jsTrim (l : List Char) : List Char :=
  ((l.dropWhile isJsWS).reverse.dropWhile isJsWS).reverse

/-- The leaf text characters of a page (`textContent` of its content
element), in document order. -/
def pageText (pg : Page) : List Char :=
  (pg.map BlockNode.text).flatten

/-- The serialized markup of a page (`innerHTML` of its content element). -/
def pageMarkup (pg : Page) : String :=
  String.join (pg.map BlockNode.markup)

/-- Embedding of `getAllContent`: concatenate the `innerHTML` of every
`.page-content` element, in page order. -/
def getAllContent (pages : List Page) : String :=
  String.join (pages.map pageMarkup)

/-- The placeholder paragraph a freshly created page is seeded with
(`setPages(p => [...p, '<p><br/></p>'])`). -/
def newPageBlock : BlockNode :=
  { markup := "<p><br/></p>", text := [], hasImgTable := false }

/-- The loop body of `moveOverflowContent`, with an explicit fuel argument
(each iteration removes one child from the source page, so fuel equal to the
source's length is always sufficient; on empty sources the loop stops because
`lastChild` is null). -/
def moveOverflowGo (H : Page → Nat) (C : Nat) : Nat → Page → Page → Bool →
    Page × Page × Bool
  | 0, src, tgt, moved => (src, tgt, moved)
  | fuel + 1, src, tgt, moved =>
    if H src > C + 1 then
      match src.getLast? with
      | none => (src, tgt, moved)
      | some last => moveOverflowGo H C fuel src.dropLast (last :: tgt) true
    else (src, tgt, moved)

/-- Embedding of `moveOverflowContent(sourcePage, targetPage)`: while the
source page overflows its box by more than one layout unit
(`sourcePage.scrollHeight > maxHeight + 1`), move the source's last child to
the front of the target page, recording that a move happened.  The loop stops
when the source no longer overflows or has no children left. -/
def moveOverflowContent (H : Page → Nat) (C : Nat) (src tgt : Page) (moved : Bool) :
    Page × Page × Bool :=
  moveOverflowGo H C src.length src tgt moved

/-- Forward (overflow) pass of `balanceFromPage`, processing the page at the
cursor (`p`) followed by the remaining pages.  Returns the updated pages,
whether any node move happened, and whether the pass stopped early to request
creation of a new trailing page (`setPages` + immediate `return`). -/
def fwdGoAux (H : Page → Nat) (C : Nat) (p : Page) : List Page → List Page × Bool × Bool
  | [] =>
    if H p > C + 1 then ([p], false, true)
    else ([p], false, false)
  | q :: rest =>
    if H p > C + 1 then
      let m := moveOverflowContent H C p q false
      let r := fwdGoAux H C m.2.1 rest
      (m.1 :: r.1, m.2.2 || r.2.1, r.2.2)
    else
      let r := fwdGoAux H C q rest
      (p :: r.1, r.2.1, r.2.2)

/-- Forward (overflow) pass of `balanceFromPage`, acting on the suffix of the
page-element list that starts at the trigger index. -/
def fwdGo (H : Page → Nat) (C : Nat) : List Page → List Page × Bool × Bool
  | [] => ([], false, false)
  | p :: rest => fwdGoAux H C p rest

/-- Backward (underflow) pass of `balanceFromPage`, processing the page at
the cursor (`p`) followed by the remaining pages: if the next page has a
first child, tentatively append it to the current page; if the current page
then overflows (`scrollHeight > clientHeight`, no epsilon), put the candidate
back as the next page's first child, otherwise keep it and mark a change.  At
most one candidate is tried per adjacent pair per invocation. -/
def backPassAux (H : Page → Nat) (C : Nat) (p : Page) : List Page → List Page × Bool
  | [] => ([p], false)
  | q :: rest =>
    match q with
    | [] =>
      let r := backPassAux H C [] rest
      (p :: r.1, r.2)
    | c :: qrest =>
      if H (p ++ [c]) > C then
        let r := backPassAux H C (c :: qrest) rest
        (p :: r.1, r.2)
      else
        let r := backPassAux H C qrest rest
        ((p ++ [c]) :: r.1, true)

/-- Backward (underflow) pass of `balanceFromPage` over all adjacent page
pairs. -/
def backPass (H : Page → Nat) (C : Nat) : List Page → List Page × Bool
  | [] => ([], false)
  | p :: rest => backPassAux H C p rest

/-- Trailing-page cleanup of `balanceFromPage`: when more than one page
exists, the last page is effectively empty (`!textContent.trim()` and no
`img`/`table` descendant), the second-to-last page does not overflow, and the
last page does not contain the active focus, request destruction of the last
page.  Returns the resulting page list and whether a destruction was
requested. -/
def cleanupStep (H : Page → Nat) (C : Nat) (focusInLast : Bool) (pages : List Page) :
    List Page × Bool :=
  if 1 < pages.length then
    match pages.getLast?, pages.dropLast.getLast? with
    | some lastPage, some secondLast =>
      if jsTrim (pageText lastPage) = [] ∧ ¬ lastPage.any BlockNode.hasImgTable ∧
          H secondLast ≤ C then
        if ¬ focusInLast then (pages.dropLast, true) else (pages, false)
      else (pages, false)
    | _, _ => (pages, false)
  else (pages, false)

/-- Outcome of one `balanceFromPage` invocation.  `domPages` is the page list
as the DOM shows it when the engine reads content back (step 4 of the code):
requested page creations/destructions (`setPages`) only materialise at the
next render, so `domPages` excludes them while `pages` includes them.
`fwdMoved`/`pulled`/`destroyed` record whether the forward pass moved a node,
the backward pass kept a pull, and the cleanup requested a destruction. -/
structure BalanceOutcome where
  pages : List Page
  domPages : List Page
  requestedNewPage : Bool
  fwdMoved : Bool
  pulled : Bool
  destroyed : Bool
  emitted : Option String
deriving Repr

/-- Embedding of `balanceFromPage(startIndex)`: forward overflow pass from
the trigger index (early-returning with a page-creation request when the last
page overflows), then the backward underflow pass over all adjacent pairs,
then trailing-page cleanup, then — only when a change was made — emission of
the concatenated page markup to the host (`onContentChange`). -/
def balanceFromPage (H : Page → Nat) (C : Nat) (startIndex : Nat) (focusInLast : Bool)
    (pages : List Page) : BalanceOutcome :=
  let pre := pages.take startIndex
  let suf := pages.drop startIndex
  let f := fwdGo H C suf
  if f.2.2 then
    { pages := pre ++ f.1 ++ [[newPageBlock]]
      domPages := pre ++ f.1
      requestedNewPage := true
      fwdMoved := f.2.1
      pulled := false
      destroyed := false
      emitted := none }
  else
    let afterFwd := pre ++ f.1
    let b := backPass H C afterFwd
    let cl := cleanupStep H C focusInLast b.1
    let changed := f.2.1 || b.2 || cl.2
    { pages := cl.1
      domPages := b.1
      requestedNewPage := false
      fwdMoved := f.2.1
      pulled := b.2
      destroyed := cl.2
      emitted := if changed then some (getAllContent b.1) else none }

/-- All leaf text characters across a page list, in document order. -/
def docText (pages : List Page) : List Char :=
  (pages.flatten.map BlockNode.text).flatten

/-- An editing-session operation: a live edit replacing the content of one
page, or a rebalance invocation. -/
inductive EditOp where
  | edit (i : Nat) (f : Page → Page)
  | balance (H : Page → Nat) (C : Nat) (startIndex : Nat) (focusInLast : Bool)

/-- Apply one session operation to the page list. -/
def applyOp : EditOp → List Page → List Page
  | .edit i f, pages => pages.mapIdx (fun j pg => if j = i then f pg else pg)
  | .balance H C s foc, pages => (balanceFromPage H C s foc pages).pages

/-- Apply a sequence of session operations in order. -/
def applyOps (ops : List EditOp) (pages : List Page) : List Page :=
  ops.foldl (fun ps op => applyOp op ps) pages

theorem moveOverflowGo_flatten (H : Page → Nat) (C : Nat) :
    ∀ (fuel : Nat) (src tgt : Page) (moved : Bool),
      (moveOverflowGo H C fuel src tgt moved).1 ++
        (moveOverflowGo H C fuel src tgt moved).2.1 = src ++ tgt := by
  intro fuel
  induction fuel with
  | zero => intro src tgt moved; rfl
  | succ n ih =>
    intro src tgt moved
    by_cases hov : H src > C + 1
    · cases h : src.getLast? with
      | none => simp [moveOverflowGo, hov, h]
      | some last =>
        have hne : src ≠ [] := by
          intro hn
          subst hn
          simp at h
        have hlast : last = src.getLast hne := by
          rw [List.getLast?_eq_getLast src hne] at h
          exact (Option.some_inj.mp h).symm
        simp only [moveOverflowGo, if_pos hov, h]
        rw [ih]
        subst hlast
        calc src.dropLast ++ src.getLast hne :: tgt
            = (src.dropLast ++ [src.getLast hne]) ++ tgt := by simp
          _ = src ++ tgt := by rw [List.dropLast_append_getLast hne]
    · simp [moveOverflowGo, hov]

theorem moveOverflowContent_flatten (H : Page → Nat) (C : Nat) (src tgt : Page)
    (moved : Bool) :
    (moveOverflowContent H C src tgt moved).1 ++
      (moveOverflowContent H C src tgt moved).2.1 = src ++ tgt :=
  moveOverflowGo_flatten H C src.length src tgt moved

theorem fwdGoAux_flatten (H : Page → Nat) (C : Nat) :
    ∀ (l : List Page) (p : Page), (fwdGoAux H C p l).1.flatten = p ++ l.flatten := by
  intro l
  induction l with
  | nil =>
    intro p
    by_cases hov : H p > C + 1 <;> simp [fwdGoAux, hov]
  | cons q rest ih =>
    intro p
    by_cases hov : H p > C + 1
    · have hm := moveOverflowContent_flatten H C p q false
      simp only [fwdGoAux, if_pos hov, List.flatten_cons]
      rw [ih]
      rw [← List.append_assoc, hm]
      simp
    · simp only [fwdGoAux, if_neg hov, List.flatten_cons]
      rw [ih]

theorem fwdGo_flatten (H : Page → Nat) (C : Nat) (l : List Page) :
    (fwdGo H C l).1.flatten = l.flatten := by
  cases l with
  | nil => rfl
  | cons p rest => simpa using fwdGoAux_flatten H C rest p

theorem backPassAux_flatten (H : Page → Nat) (C : Nat) :
    ∀ (l : List Page) (p : Page), (backPassAux H C p l).1.flatten = p ++ l.flatten := by
  intro l
  induction l with
  | nil => intro p; simp [backPassAux]
  | cons q rest ih =>
    intro p
    cases q with
    | nil => simp only [backPassAux, List.flatten_cons]; rw [ih]
    | cons c qrest =>
      by_cases hov : H (p ++ [c]) > C
      · simp only [backPassAux, if_pos hov, List.flatten_cons]
        rw [ih]
      · simp only [backPassAux, if_neg hov, List.flatten_cons]
        rw [ih]
        simp

theorem backPass_flatten (H : Page → Nat) (C : Nat) (l : List Page) :
    (backPass H C l).1.flatten = l.flatten := by
  cases l with
  | nil => rfl
  | cons p rest => simpa using backPassAux_flatten H C rest p

theorem fwdGoAux_length (H : Page → Nat) (C : Nat) :
    ∀ (l : List Page) (p : Page), (fwdGoAux H C p l).1.length = l.length + 1 := by
  intro l
  induction l with
  | nil =>
    intro p
    by_cases hov : H p > C + 1 <;> simp [fwdGoAux, hov]
  | cons q rest ih =>
    intro p
    by_cases hov : H p > C + 1 <;> simp [fwdGoAux, hov, ih]

theorem fwdGo_length (H : Page → Nat) (C : Nat) (l : List Page) :
    (fwdGo H C l).1.length = l.length := by
  cases l with
  | nil => rfl
  | cons p rest => simpa using fwdGoAux_length H C rest p

theorem backPassAux_length (H : Page → Nat) (C : Nat) :
    ∀ (l : List Page) (p : Page), (backPassAux H C p l).1.length = l.length + 1 := by
  intro l
  induction l with
  | nil => intro p; simp [backPassAux]
  | cons q rest ih =>
    intro p
    cases q with
    | nil => simp [backPassAux, ih]
    | cons c qrest =>
      by_cases hov : H (p ++ [c]) > C <;> simp [backPassAux, hov, ih]

theorem backPass_length (H : Page → Nat) (C : Nat) (l : List Page) :
    (backPass H C l).1.length = l.length := by
  cases l with
  | nil => rfl
  | cons p rest => simpa using backPassAux_length H C rest p


theorem cleanupStep_cases (H : Page → Nat) (C : Nat) (f : Bool) (pages : List Page) :
    cleanupStep H C f pages = (pages, false) ∨
      ((cleanupStep H C f pages).1 = pages.dropLast ∧
        (cleanupStep H C f pages).2 = true ∧ 1 < pages.length ∧
        ∃ lastPage, pages.getLast? = some lastPage ∧
          jsTrim (pageText lastPage) = [] ∧ ¬ lastPage.any BlockNode.hasImgTable) := by
  unfold cleanupStep
  split
  · rename_i hlen
    split
    · rename_i lastPage secondLast hg hg2
      split
      · rename_i hcond
        split
        · right
          exact ⟨rfl, rfl, hlen, lastPage, hg, hcond.1, hcond.2.1⟩
        · left; rfl
      · left; rfl
    · left; rfl
  · left; rfl
theorem jsTrim_eq_nil_all_ws {l : List Char} (h : jsTrim l = []) :
    ∀ c ∈ l, isJsWS c = true := by
  unfold jsTrim at h
  have h1 : (l.dropWhile isJsWS).reverse.dropWhile isJsWS = [] := by
    have := congrArg List.reverse h
    simpa using this
  have h2 : ∀ c ∈ (l.dropWhile isJsWS).reverse, isJsWS c = true :=
    List.dropWhile_eq_nil_iff.mp h1
  have h3 : ∀ c ∈ l.dropWhile isJsWS, isJsWS c = true := by
    intro c hc
    exact h2 c (List.mem_reverse.mpr hc)
  intro c hc
  rw [← List.takeWhile_append_dropWhile isJsWS l] at hc
  rcases List.mem_append.mp hc with hc | hc
  · exact List.mem_takeWhile_imp hc
  · exact h3 c hc

theorem docText_flatten_congr {a b : List Page} (h : a.flatten = b.flatten) :
    docText a = docText b := by
  unfold docText
  rw [h]

theorem docText_append (a b : List Page) : docText (a ++ b) = docText a ++ docText b := by
  simp [docText]

theorem docText_dropLast_getLast {pages : List Page} {lastPage : Page}
    (h : pages.getLast? = some lastPage) :
    docText pages = docText pages.dropLast ++ pageText lastPage := by
  have hne : pages ≠ [] := by
    intro hn
    subst hn
    simp at h
  have hlast : lastPage = pages.getLast hne := by
    rw [List.getLast?_eq_getLast pages hne] at h
    exact (Option.some_inj.mp h).symm
  subst hlast
  conv_lhs => rw [← List.dropLast_append_getLast hne]
  rw [docText_append]
  simp [docText, pageText]

theorem balance_docText (H : Page → Nat) (C : Nat) (s : Nat) (f : Bool)
    (pages : List Page) :
    ((balanceFromPage H C s f pages).destroyed = false →
      docText (balanceFromPage H C s f pages).pages = docText pages) ∧
    ∃ lost : List Char, (∀ c ∈ lost, isJsWS c = true) ∧
      docText pages = docText (balanceFromPage H C s f pages).pages ++ lost := by
  have hsplit : pages.take s ++ pages.drop s = pages := List.take_append_drop s pages
  unfold balanceFromPage
  by_cases hreq : (fwdGo H C (pages.drop s)).2.2
  · simp only [hreq, if_true]
    have h1 : docText (pages.take s ++ (fwdGo H C (pages.drop s)).1 ++ [[newPageBlock]]) =
        docText pages := by
      rw [docText_append, docText_append]
      have h2 : docText (fwdGo H C (pages.drop s)).1 = docText (pages.drop s) :=
        docText_flatten_congr (fwdGo_flatten H C _)
      rw [h2]
      have h3 : docText ([[newPageBlock]] : List Page) = [] := by decide
      rw [h3, List.append_nil, ← docText_append, hsplit]
    exact ⟨fun _ => h1, [], by simp, by rw [h1, List.append_nil]⟩
  · simp only [hreq, if_false, Bool.false_eq_true]
    set afterFwd := pages.take s ++ (fwdGo H C (pages.drop s)).1 with hafter
    set b := backPass H C afterFwd with hb
    have hbflat : docText b.1 = docText pages := by
      have h2 : docText b.1 = docText afterFwd :=
        docText_flatten_congr (backPass_flatten H C _)
      rw [h2, hafter, docText_append]
      have h3 : docText (fwdGo H C (pages.drop s)).1 = docText (pages.drop s) :=
        docText_flatten_congr (fwdGo_flatten H C _)
      rw [h3, ← docText_append, hsplit]
    rcases cleanupStep_cases H C f b.1 with hcl | ⟨hcl1, hcl2, _, lastPage, hg, htrim, _⟩
    · constructor
      · intro _
        simp only [hcl, hbflat]
      · exact ⟨[], by simp, by simp only [hcl, hbflat, List.append_nil]⟩
    · constructor
      · intro hdes
        rw [hcl2] at hdes
        exact absurd hdes (by simp)
      · refine ⟨pageText lastPage, jsTrim_eq_nil_all_ws htrim, ?_⟩
        rw [← hbflat, hcl1, docText_dropLast_getLast hg]

/-- Sample block used in concrete scenarios: a paragraph reading `a`. -/
def blkA : BlockNode := { markup := "<p>a</p>", text := ['a'], hasImgTable := false }

/-- Sample block: a paragraph reading `b`. -/
def blkB : BlockNode := { markup := "<p>b</p>", text := ['b'], hasImgTable := false }

/-- Sample block: a paragraph reading `c`. -/
def blkC : BlockNode := { markup := "<p>c</p>", text := ['c'], hasImgTable := false }

/-- Sample block: a paragraph containing a single space character. -/
def blkSpace : BlockNode := { markup := "<p> </p>", text := [' '], hasImgTable := false }

/-- A concrete measurement oracle: each block is one layout unit tall. -/
def lenH : Page → Nat := fun pg => pg.length

/-- A concrete measurement oracle: one layout unit per text character. -/
def textLenH : Page → Nat := fun pg => (pageText pg).length

/-- C2, counterexample.  A rebalance invocation on two pages `[<p>a</p>]`,
`[<p> </p>]` (box height 1, one unit per character) destroys the trailing
page, whose only text is a single space: the multiset of leaf text characters
across all pages changes from `{a, ␣}` to `{a}`, so the claim that every
rebalance leaves the multiset unchanged is false. -/
theorem rebalance_chars_counterexample :
    docText (balanceFromPage textLenH 1 0 false [[blkA], [blkSpace]]).pages = ['a'] ∧
    docText [[blkA], [blkSpace]] = ['a', ' '] ∧
    (docText (balanceFromPage textLenH 1 0 false [[blkA], [blkSpace]]).pages :
        Multiset Char) ≠ (docText [[blkA], [blkSpace]] : Multiset Char) := by
  refine ⟨by decide, by decide, by decide⟩

/-- C2, amended.  Forward-pass moves, backward-pass pulls (including the undo
of a pull that overflowed) and new-page creation preserve the multiset of
leaf text characters exactly; trailing-page destruction can only discard a
page whose text consists entirely of whitespace.  Hence across every
rebalance invocation the non-whitespace leaf text characters are preserved
exactly (in order, hence as a multiset), and whenever no destruction occurs
the full character sequence is preserved. -/
theorem rebalance_preserves_chars_up_to_trailing_ws (H : Page → Nat) (C : Nat)
    (s : Nat) (f : Bool) (pages : List Page) :
    ((balanceFromPage H C s f pages).destroyed = false →
      docText (balanceFromPage H C s f pages).pages = docText pages) ∧
    (docText (balanceFromPage H C s f pages).pages).filter (fun c => ¬ isJsWS c) =
      (docText pages).filter (fun c => ¬ isJsWS c) := by
  rcases balance_docText H C s f pages with ⟨hnd, lost, hws, hsum⟩
  refine ⟨hnd, ?_⟩
  rw [hsum, List.filter_append]
  have : lost.filter (fun c => ¬ isJsWS c) = [] := by
    rw [List.filter_eq_nil_iff]
    intro c hc
    simp [hws c hc]
  rw [this, List.append_nil]

/-- Witness for C2's amended theorem: a concrete invocation without a
destruction preserves the characters exactly. -/
theorem rebalance_preserves_chars_witness :
    docText (balanceFromPage lenH 1 0 false [[blkB, blkC, blkA]]).pages =
      docText [[blkB, blkC, blkA]] :=
  (rebalance_preserves_chars_up_to_trailing_ws lenH 1 0 false [[blkB, blkC, blkA]]).1
    (by decide)

theorem balance_pages_ne_nil (H : Page → Nat) (C : Nat) (s : Nat) (f : Bool)
    (pages : List Page) (h : pages ≠ []) :
    (balanceFromPage H C s f pages).pages ≠ [] := by
  have hlen : 0 < pages.length := List.length_pos.mpr h
  unfold balanceFromPage
  by_cases hreq : (fwdGo H C (pages.drop s)).2.2
  · simp [hreq]
  · simp only [hreq, if_false, Bool.false_eq_true]
    have hblen : (backPass H C (pages.take s ++ (fwdGo H C (pages.drop s)).1)).1.length =
        pages.length := by
      rw [backPass_length, List.length_append, fwdGo_length, List.length_take,
        List.length_drop]
      omega
    rcases cleanupStep_cases H C f
        (backPass H C (pages.take s ++ (fwdGo H C (pages.drop s)).1)).1 with
      hcl | ⟨hcl1, _, hgt, _⟩
    · simp only [hcl]
      intro hnil
      rw [hnil] at hblen
      simp at hblen
      omega
    · simp only [hcl1]
      intro hnil
      have := congrArg List.length hnil
      rw [List.length_dropLast, hblen] at this
      simp at this
      omega

/-- C3.  Starting from any non-empty page list, no sequence of edits and
rebalance invocations can make the page list empty; moreover the trailing
cleanup requests a destruction only when more than one page exists, and then
removes exactly the last page (so in particular the first page is never
destroyed, and deleting all content from a single remaining page never
destroys it). -/
theorem min_one_page_invariant :
    (∀ (ops : List EditOp) (start : List Page), start ≠ [] → applyOps ops start ≠ []) ∧
    (∀ (H : Page → Nat) (C : Nat) (f : Bool) (pages : List Page),
      (cleanupStep H C f pages).2 = true →
        1 < pages.length ∧ (cleanupStep H C f pages).1 = pages.dropLast) := by
  constructor
  · intro ops
    induction ops with
    | nil => intro start h; exact h
    | cons op rest ih =>
      intro start h
      have hstep : applyOp op start ≠ [] := by
        cases op with
        | edit i f =>
          simp only [applyOp]
          intro hnil
          have := congrArg List.length hnil
          rw [List.length_mapIdx] at this
          exact h (List.length_eq_zero.mp this)
        | balance H C s foc => exact balance_pages_ne_nil H C s foc start h
      exact ih (applyOp op start) hstep
  · intro H C f pages hdes
    rcases cleanupStep_cases H C f pages with hcl | ⟨hcl1, _, hgt, _⟩
    · rw [hcl] at hdes
      exact absurd hdes (by simp)
    · exact ⟨hgt, hcl1⟩

/-- Witness for C3: a concrete editing session (edit page 0 to empty, then
rebalance) starting from one page keeps the page list non-empty, and a
concrete destruction removes exactly the trailing page. -/
theorem min_one_page_invariant_witness :
    applyOps [EditOp.edit 0 (fun _ => []), EditOp.balance textLenH 1 0 false]
        [[blkA]] ≠ [] ∧
    (1 < ([[blkA], [blkSpace]] : List Page).length ∧
      (cleanupStep textLenH 1 false [[blkA], [blkSpace]]).1 =
        ([[blkA], [blkSpace]] : List Page).dropLast) :=
  ⟨min_one_page_invariant.1 _ _ (by decide),
    min_one_page_invariant.2 textLenH 1 false [[blkA], [blkSpace]] (by decide)⟩

/-- Modelled from the spec (§4.1 backward-pass wording): "while page i+1 has
at least one content node, tentatively move its first content node to the end
of page i's content; measure page i's height; if it now overflows, undo the
move ... and stop pulling into page i; otherwise keep the move, mark a
change, and continue attempting to pull further nodes".  This is the inner
while-loop the specification describes for one adjacent page pair. -/
def pullWhile (H : Page → Nat) (C : Nat) (p : Page) :
    List BlockNode → Page × List BlockNode × Bool
  | [] => (p, [], false)
  | c :: qrest =>
    if H (p ++ [c]) > C then (p, c :: qrest, false)
    else
      let r := pullWhile H C (p ++ [c]) qrest
      (r.1, r.2.1, true)

/-- Modelled from the spec: the backward pass as specified, applying the
while-loop `pullWhile` to every adjacent page pair. -/
def backPassSpecWhile (H : Page → Nat) (C : Nat) : List Page → List Page × Bool
  | [] => ([], false)
  | p :: rest => backSpecAux p rest
where
  backSpecAux (p : Page) : List Page → List Page × Bool
    | [] => ([p], false)
    | q :: rest =>
      let s := pullWhile H C p q
      let r := backSpecAux s.2.1 rest
      (s.1 :: r.1, s.2.2 || r.2)

/-- The amended single-pull step: if the next page has a first content node,
tentatively move it to the end of the current page, measure, undo the move if
the current page now overflows, otherwise keep it and mark a change — and
then move on to the next page pair without pulling further nodes. -/
def pullOnce (H : Page → Nat) (C : Nat) (p q : Page) : Page × Page × Bool :=
  match q with
  | [] => (p, q, false)
  | c :: qrest =>
    if H (p ++ [c]) > C then (p, c :: qrest, false) else (p ++ [c], qrest, true)

/-- The amended backward pass: `pullOnce` applied to every adjacent page
pair, at most one node moving into each page per invocation. -/
def backPassOnce (H : Page → Nat) (C : Nat) : List Page → List Page × Bool
  | [] => ([], false)
  | p :: rest => backOnceAux p rest
where
  backOnceAux (p : Page) : List Page → List Page × Bool
    | [] => ([p], false)
    | q :: rest =>
      let s := pullOnce H C p q
      let r := backOnceAux s.2.1 rest
      (s.1 :: r.1, s.2.2 || r.2)

/-- C4, counterexample.  With one empty page followed by a page holding two
one-unit blocks (box height 2), both blocks would fit on the first page, and
the specified while-loop (`backPassSpecWhile`) pulls both; the engine's
backward pass pulls only the first block and leaves the second on page 1, so
the claim that it "continues attempting to pull further nodes" within one
invocation is false. -/
theorem backward_pass_counterexample :
    backPass lenH 2 [[], [blkB, blkC]] = ([[blkB], [blkC]], true) ∧
    lenH [blkB, blkC] ≤ 2 ∧
    backPassSpecWhile lenH 2 [[], [blkB, blkC]] = ([[blkB, blkC], []], true) ∧
    backPass lenH 2 [[], [blkB, blkC]] ≠ backPassSpecWhile lenH 2 [[], [blkB, blkC]] := by
  refine ⟨by decide, by decide, by decide, by decide⟩

/-- C4, amended.  In the backward pass, for every page i from 0 to the
second-to-last page: if page i+1 has at least one content node, the engine
tentatively moves that first node to the end of page i, measures page i, and
undoes the move (restoring the node as page i+1's first node) if page i now
overflows, otherwise keeps it and marks a change; it pulls at most one node
into each page per invocation (`pullOnce` per adjacent pair), rather than
looping. -/
theorem backward_pass_single_pull (H : Page → Nat) (C : Nat) (l : List Page) :
    backPass H C l = backPassOnce H C l := by
  cases l with
  | nil => rfl
  | cons p rest =>
    show backPassAux H C p rest = backPassOnce.backOnceAux H C p rest
    induction rest generalizing p with
    | nil => rfl
    | cons q rest ih =>
      cases q with
      | nil =>
        simp only [backPassAux, backPassOnce.backOnceAux, pullOnce, ih, Bool.false_or]
      | cons c qrest =>
        by_cases hov : H (p ++ [c]) > C
        · simp only [backPassAux, backPassOnce.backOnceAux, pullOnce, if_pos hov, ih,
            Bool.false_or]
        · simp only [backPassAux, backPassOnce.backOnceAux, pullOnce, if_neg hov, ih,
            Bool.true_or]

/-- C6.  A rebalance invocation emits a string to the host only when at least
one forward move, backward pull or trailing destruction occurred, and that
string is the concatenation, in page order, of the content markup of all
pages as the DOM shows them at emission time; an invocation that makes no
change — including the early return that only requests creation of a new
page — emits nothing. -/
theorem rebalance_emission (H : Page → Nat) (C : Nat) (s : Nat) (f : Bool)
    (pages : List Page) :
    (∀ str, (balanceFromPage H C s f pages).emitted = some str →
      ((balanceFromPage H C s f pages).fwdMoved = true ∨
        (balanceFromPage H C s f pages).pulled = true ∨
        (balanceFromPage H C s f pages).destroyed = true) ∧
      str = getAllContent (balanceFromPage H C s f pages).domPages) ∧
    (((balanceFromPage H C s f pages).fwdMoved = false ∧
      (balanceFromPage H C s f pages).pulled = false ∧
      (balanceFromPage H C s f pages).destroyed = false) →
      (balanceFromPage H C s f pages).emitted = none) ∧
    ((balanceFromPage H C s f pages).requestedNewPage = true →
      (balanceFromPage H C s f pages).emitted = none) := by
  unfold balanceFromPage
  by_cases hreq : (fwdGo H C (pages.drop s)).2.2
  · simp [hreq]
  · simp only [hreq, if_false, Bool.false_eq_true]
    refine ⟨?_, ?_, ?_⟩
    · intro str hstr
      by_cases hch : ((fwdGo H C (pages.drop s)).2.1 ||
          (backPass H C (pages.take s ++ (fwdGo H C (pages.drop s)).1)).2 ||
          (cleanupStep H C f
            (backPass H C (pages.take s ++ (fwdGo H C (pages.drop s)).1)).1).2) = true
      · rw [if_pos hch] at hstr
        have hstr' := (Option.some_inj.mp hstr).symm
        refine ⟨?_, hstr'⟩
        rcases Bool.or_eq_true_iff.mp hch with h | h
        · rcases Bool.or_eq_true_iff.mp h with h | h
          · exact Or.inl h
          · exact Or.inr (Or.inl h)
        · exact Or.inr (Or.inr h)
      · rw [if_neg hch] at hstr
        exact absurd hstr (by simp)
    · intro ⟨h1, h2, h3⟩
      rw [h1, h2, h3]
      simp
    · intro hr
      exact absurd hr (by simp)

/-- Witness for C6: a concrete invocation that moves a block emits exactly
the concatenated page markup, and a concrete invocation that only requests a
new page emits nothing. -/
theorem rebalance_emission_witness :
    ("<p>b</p><p>c</p>" =
      getAllContent (balanceFromPage lenH 0 0 false [[blkB, blkC], []]).domPages) ∧
    (balanceFromPage lenH 1 0 false [[blkB, blkC, blkA]]).emitted = none :=
  ⟨((rebalance_emission lenH 0 0 false [[blkB, blkC], []]).1 "<p>b</p><p>c</p>"
      (by decide)).2,
    (rebalance_emission lenH 1 0 false [[blkB, blkC, blkA]]).2.2 (by decide)⟩

end Pagination

namespace Docx

/-- The twips-per-millimetre factor used by both converters (`56.6929`). -/
def twipFactor : ℚ := 566929 / 10000

/-- JavaScript `Math.round`: round half toward positive infinity. -/
def jsRound (x : ℚ) : ℤ := ⌊x + 1 / 2⌋

/-- Model of JavaScript `parseInt(s, 10)`: skip leading whitespace, read an
optional sign and then leading decimal digits, ignoring any trailing
characters; `NaN` (here `none`) when no digit is found. -/
def parseIntJs (s : String) : Option ℤ :=
  let cs := s.data.dropWhile Pagination.isJsWS
  let signed : ℤ × List Char :=
    match cs with
    | '-' :: r => (-1, r)
    | '+' :: r => (1, r)
    | _ => (1, cs)
  let ds := signed.2.takeWhile Char.isDigit
  if ds.isEmpty then none
  else some (signed.1 * ds.foldl (fun a c => a * 10 + ((c.toNat : ℤ) - 48)) 0)

/-- Embedding of the importer's `twipsToMm` (parseDocxFile): a missing
attribute or an unparsable value falls back to `25.4`; otherwise the twip
value is divided by `56.6929` and the result rounded to one decimal place
(`Math.round((num / 56.6929) * 10) / 10`).  All four margin attributes
(`w:top`, `w:bottom`, `w:left`, `w:right`) go through this one function. -/
def twipsToMm (val : Option String) : ℚ :=
  match val with
  | none => 254 / 10
  | some s =>
    match parseIntJs s with
    | none => 254 / 10
    | some n => (jsRound ((n / twipFactor) * 10) : ℚ) / 10

/-- Embedding of the exporter's `mmToTwips` (saveToDocx):
`Math.round(mm * 56.6929)`. -/
def mmToTwips (mm : ℚ) : ℤ := jsRound (mm * twipFactor)

/-- C7.  The native-unit value for 25.4 mm is 1440 twips; importing the
attribute string `"1440"` yields exactly `25.4` (hence within ±0.1), and
exporting that margin yields a native value within ±1 of 1440 (here exactly
1440).  The same converter serves all four margin attributes. -/
theorem margin_roundtrip_at_1440 :
    twipsToMm (some "1440") = 254 / 10 ∧
    |twipsToMm (some "1440") - 254 / 10| ≤ 1 / 10 ∧
    |(mmToTwips (twipsToMm (some "1440")) : ℚ) - 1440| ≤ 1 := by
  have hp : parseIntJs "1440" = some 1440 := by decide
  have hfl : jsRound ((((1440 : ℤ) : ℚ) / twipFactor) * 10) = 254 := by
    unfold jsRound twipFactor
    norm_num [Int.floor_eq_iff]
  have him : twipsToMm (some "1440") = 254 / 10 := by
    simp only [twipsToMm, hp, hfl]
    norm_num
  have hex : mmToTwips (254 / 10) = 1440 := by
    unfold mmToTwips jsRound twipFactor
    norm_num [Int.floor_eq_iff]
  refine ⟨him, ?_, ?_⟩
  · rw [him]
    norm_num
  · rw [him, hex]
    norm_num

/-- C8.  The importer's margin conversion: an absent attribute yields the
fallback `25.4`; an unparsable value yields the fallback `25.4`; a parsable
integer twip value `n` yields `n / 56.6929` rounded to one decimal place. -/
theorem twipsToMm_spec :
    twipsToMm none = 254 / 10 ∧
    (∀ s, parseIntJs s = none → twipsToMm (some s) = 254 / 10) ∧
    (∀ s n, parseIntJs s = some n →
      twipsToMm (some s) = (jsRound ((n / twipFactor) * 10) : ℚ) / 10) := by
  refine ⟨rfl, ?_, ?_⟩
  · intro s h
    simp [twipsToMm, h]
  · intro s n h
    simp [twipsToMm, h]

/-- Witness for C8: the unparsable value `"abc"` falls back to 25.4, and the
parsable value `"1440"` converts through the rounding formula. -/
theorem twipsToMm_spec_witness :
    twipsToMm (some "abc") = 254 / 10 ∧
    twipsToMm (some "1440") = (jsRound ((1440 / twipFactor) * 10) : ℚ) / 10 :=
  ⟨twipsToMm_spec.2.1 "abc" (by decide),
    twipsToMm_spec.2.2 "1440" 1440 (by decide)⟩

/-! ## The document trees the codec walks

Both directions of the codec operate on parsed markup trees: the exporter
walks the browser DOM produced by `DOMParser.parseFromString(html,
'text/html')`, the importer walks the XML DOM produced by
`DOMParser.parseFromString(xml, 'text/xml')`.  Both are modelled by one tree
type, defined as a mutual pair so that every function over it is structurally
recursive (and therefore kernel-computable).  Element names are stored
as written in the markup (the exporter reads `el.tagName.toLowerCase()`, and
all markup this development evaluates is written in lowercase); attribute
names are the qualified names (`getAttribute` takes qualified names). -/

mutual

inductive XNode where
  | text (s : String)
  | elem (name : String) (attrs : List (String × String)) (children : XNodes)

inductive XNodes where
  | nil
  | cons (head : XNode) (tail : XNodes)

end

deriving instance DecidableEq for XNode, XNodes

/-- The children of a node list as a Lean list. -/
def XNodes.toList : XNodes → List XNode
  | .nil => []
  | .cons hd tl => hd :: tl.toList

/-- Append node lists. -/
def XNodes.append : XNodes → XNodes → XNodes
  | .nil, ys => ys
  | .cons hd tl, ys => .cons hd (tl.append ys)

/-- The local part of a qualified name (`Element.localName`): everything
after the first colon, or the whole name when there is none. -/
def localPart (s : String) : String :=
  match s.data.dropWhile (fun c => !(c == ':')) with
  | [] => s
  | _ :: rest => ⟨rest⟩

/-- `Element.getAttribute`: the first binding of the qualified attribute
name, or null. -/
def lookupAttr (attrs : List (String × String)) (nm : String) : Option String :=
  match attrs with
  | [] => none
  | (k, v) :: rest => if k = nm then some v else lookupAttr rest nm

mutual

/-- `Node.textContent`: the concatenation of all descendant text. -/
def XNode.textContent : XNode → String
  | .text s => s
  | .elem _ _ kids => kids.textContent

def XNodes.textContent : XNodes → String
  | .nil => ""
  | .cons hd tl => hd.textContent ++ tl.textContent

end

mutual

/-- `getElementsByTagNameNS("*", nm)` seen from a node: all descendant
elements whose local name is `nm`, in document order (self excluded). -/
def XNode.byName (nm : String) : XNode → List XNode
  | .text _ => []
  | .elem _ _ kids => XNodes.byName nm kids

def XNodes.byName (nm : String) : XNodes → List XNode
  | .nil => []
  | .cons hd tl =>
    (match hd with
      | .elem n _ _ => if localPart n = nm then [hd] else []
      | .text _ => []) ++ XNode.byName nm hd ++ XNodes.byName nm tl

end

/-- The first element with the given local name among a node's descendants
(`getElementsByTagNameNS("*", nm)[0]`). -/
def XNode.firstByName (n : XNode) (nm : String) : Option XNode :=
  (n.byName nm).head?

/-- Whether a descendant with the given local name exists
(`getElementsByTagNameNS("*", nm).length > 0`). -/
def XNode.hasByName (n : XNode) (nm : String) : Bool :=
  !(n.byName nm).isEmpty

/-- The single-quote character, used by XML attribute syntax. -/
def squote : Char := Char.ofNat 39

/-- Character-level model of the exporter's XML text escaping
(`.replace(/&/g, '&amp;').replace(/</g, '&lt;')`; the two sequential global
replacements are equivalent to this single pass because the replacement
strings introduce no further `&` left of the inserted text and no `<`). -/
def encChars : List Char → List Char
  | [] => []
  | c :: rest =>
    if c == '&' then '&' :: 'a' :: 'm' :: 'p' :: ';' :: encChars rest
    else if c == '<' then '&' :: 'l' :: 't' :: ';' :: encChars rest
    else c :: encChars rest

/-- XML entity decoding as performed by the XML parser (the entities the
codec can produce). -/
def decodeEnts : List Char → List Char
  | [] => []
  | '&' :: 'a' :: 'm' :: 'p' :: ';' :: r2 => '&' :: decodeEnts r2
  | '&' :: 'l' :: 't' :: ';' :: r2 => '<' :: decodeEnts r2
  | '&' :: 'g' :: 't' :: ';' :: r2 => '>' :: decodeEnts r2
  | c :: rest => c :: decodeEnts rest

/-- String-level wrapper of `encChars`. -/
def escapeXmlText (s : String) : String := ⟨encChars s.data⟩

/-- Serialize one attribute as ` name="value"`. -/
def serAttr (a : String × String) : String :=
  " " ++ a.1 ++ "=\"" ++ ⟨encChars a.2.data⟩ ++ "\""

/-- Serialize an attribute list. -/
def serAttrs : List (String × String) → String
  | [] => ""
  | a :: rest => serAttr a ++ serAttrs rest

mutual

/-- Canonical serialization of an XML tree: text is entity-escaped, an
element without children is self-closing, one with children uses an open and
a close tag. -/
def XNode.ser : XNode → String
  | .text s => ⟨encChars s.data⟩
  | .elem n attrs kids =>
    match kids with
    | .nil => "<" ++ n ++ serAttrs attrs ++ "/>"
    | _ => "<" ++ n ++ serAttrs attrs ++ ">" ++ kids.ser ++ "</" ++ n ++ ">"

def XNodes.ser : XNodes → String
  | .nil => ""
  | .cons hd tl => hd.ser ++ tl.ser

end

/-! ## The XML parser

A model of the `DOMParser` external collaborator for `text/xml` input, as the
importer consumes it: a recursive-descent parser over the character list.
Processing instructions are skipped, open tags carry attributes in either
quote style, an element runs until its close tag, and text runs until the
next markup character, with entities decoded.  The fuel argument only bounds
the recursion (one unit per node); callers pass the input length, which
always suffices. -/

/-- Characters that terminate a name in an open tag. -/
def isNameStop (c : Char) : Bool :=
  Pagination.isJsWS c || c == '/' || c == '>' || c == '='

/-- Drop everything up to and including the `?>` that ends a processing
instruction. -/
def dropThroughPI : List Char → List Char
  | [] => []
  | '?' :: '>' :: rest => rest
  | _ :: rest => dropThroughPI rest

/-- Drop everything up to and including the next `>`. -/
def dropAfterGt : List Char → List Char
  | [] => []
  | c :: rest => if c == '>' then rest else dropAfterGt rest

/-- Skip a close tag `</name>`. -/
def dropCloseTag : List Char → List Char
  | '<' :: '/' :: rest => dropAfterGt rest
  | cs => cs

/-- Parse the attribute list of an open tag: repeatedly skip whitespace and
read `name="value"` pairs (single quotes also accepted), stopping at `/` or
`>`.  The fuel bounds the number of attributes. -/
def parseAttrs : Nat → List Char → List (String × String) × List Char
  | 0, cs => ([], cs)
  | fuel + 1, cs =>
    match cs.dropWhile Pagination.isJsWS with
    | [] => ([], [])
    | c :: cs1 =>
      if c == '/' || c == '>' then ([], c :: cs1)
      else
        let nm := (c :: cs1).takeWhile (fun d => !isNameStop d)
        match ((c :: cs1).dropWhile (fun d => !isNameStop d)).dropWhile
            Pagination.isJsWS with
        | [] => ([], [])
        | e :: cs4 =>
          if e == '=' then
            match cs4.dropWhile Pagination.isJsWS with
            | [] => ([], [])
            | q :: cs6 =>
              if q == '"' || q == squote then
                let v := cs6.takeWhile (fun d => !(d == q))
                match cs6.dropWhile (fun d => !(d == q)) with
                | [] => ([], [])
                | _ :: cs8 =>
                  let r := parseAttrs fuel cs8
                  ((⟨nm⟩, ⟨decodeEnts v⟩) :: r.1, r.2)
              else ([], q :: cs6)
          else ([], e :: cs4)

/-- Parse a sequence of sibling XML nodes, stopping at end of input or
before a close tag.  The fuel bounds the number of nodes. -/
def parseNodes : Nat → List Char → XNodes × List Char
  | 0, cs => (.nil, cs)
  | fuel + 1, cs =>
    match cs with
    | [] => (.nil, [])
    | c :: rest =>
      if c == '<' then
        match rest with
        | [] => (.nil, cs)
        | d :: rest2 =>
          if d == '/' then (.nil, cs)
          else if d == '?' then parseNodes fuel (dropThroughPI rest2)
          else
            let nm := (d :: rest2).takeWhile (fun e => !isNameStop e)
            let a := parseAttrs ((d :: rest2).dropWhile (fun e => !isNameStop e)).length
              ((d :: rest2).dropWhile (fun e => !isNameStop e))
            match a.2 with
            | '/' :: '>' :: cs4 =>
              let r := parseNodes fuel cs4
              (.cons (.elem ⟨nm⟩ a.1 .nil) r.1, r.2)
            | '>' :: cs4 =>
              let k := parseNodes fuel cs4
              let r := parseNodes fuel (dropCloseTag k.2)
              (.cons (.elem ⟨nm⟩ a.1 k.1) r.1, r.2)
            | _ => (.nil, a.2)
      else
        let t := cs.takeWhile (fun d => !(d == '<'))
        let r := parseNodes fuel (cs.dropWhile (fun d => !(d == '<')))
        (.cons (.text ⟨decodeEnts t⟩) r.1, r.2)

/-- Parse a whole XML document string, skipping the leading processing
instruction, into the list of top-level nodes. -/
def parseXmlDoc (s : String) : XNodes :=
  (parseNodes (s.data.length + 1) s.data).1

/-! ## Well-formedness for the serializer round trip -/

/-- Characters allowed in element and attribute names by the round-trip
development (every name the codec emits satisfies this). -/
def nameOkChar (c : Char) : Bool :=
  !isNameStop c && !(c == '?') && !(c == '/') && !(c == '<') && !(c == '&') &&
    !(c == '"') && !(c == squote)

/-- A usable name: non-empty and made of name characters. -/
def nameOk (s : String) : Bool :=
  !s.data.isEmpty && s.data.all nameOkChar

/-- A serializable attribute: usable name, and a value free of double
quotes. -/
def attrOk (a : String × String) : Bool :=
  nameOk a.1 && a.2.data.all (fun c => !(c == '"'))

/-- Does the node list start with an element (or end)?  Used to forbid
adjacent text nodes, which the parser would merge. -/
def elemHeaded : XNodes → Bool
  | .nil => true
  | .cons (.elem _ _ _) _ => true
  | .cons (.text _) _ => false

/-- Is this node a text node? -/
def XNode.isTextNode : XNode → Bool
  | .text _ => true
  | .elem _ _ _ => false

mutual

/-- Well-formedness of a tree for the serializer round trip: names and
attributes are usable, text nodes are non-empty. -/
def wfX : XNode → Bool
  | .text s => !s.data.isEmpty
  | .elem n attrs kids => nameOk n && attrs.all attrOk && wfXs kids

/-- Well-formedness of a node list: each node well-formed and no two
adjacent text nodes. -/
def wfXs : XNodes → Bool
  | .nil => true
  | .cons hd tl => wfX hd && wfXs tl && (!hd.isTextNode || elemHeaded tl)

end

mutual

/-- Fuel measure for the parser round trip: one unit per node plus one for
the terminator of each sequence. -/
def XNode.parseSize : XNode → Nat
  | .text _ => 1
  | .elem _ _ kids => 1 + kids.parseSize

def XNodes.parseSize : XNodes → Nat
  | .nil => 1
  | .cons hd tl => hd.parseSize + tl.parseSize

end

end Docx

namespace Docx

theorem decodeEnts_cons_ne_amp {c : Char} (hc : ¬ c = '&') (rest : List Char) :
    decodeEnts (c :: rest) = c :: decodeEnts rest := by
  rw [decodeEnts.eq_def]
  split
  · rename_i heq
    exact absurd heq (by simp)
  · rename_i heq
    rw [List.cons.injEq] at heq
    exact absurd heq.1 hc
  · rename_i heq
    rw [List.cons.injEq] at heq
    exact absurd heq.1 hc
  · rename_i heq
    rw [List.cons.injEq] at heq
    exact absurd heq.1 hc
  · rename_i c2 rest2 h1 h2 h3 heq
    rw [List.cons.injEq] at heq
    rw [← heq.1, ← heq.2]

theorem encChars_cons (c : Char) (l : List Char) :
    encChars (c :: l) =
      (if c == '&' then '&' :: 'a' :: 'm' :: 'p' :: ';' :: encChars l
       else if c == '<' then '&' :: 'l' :: 't' :: ';' :: encChars l
       else c :: encChars l) := rfl

theorem encChars_cons_other {c : Char} (hc : ¬ c = '&') (hlt : ¬ c = '<')
    (l : List Char) : encChars (c :: l) = c :: encChars l := by
  rw [encChars_cons, if_neg (by simpa using hc), if_neg (by simpa using hlt)]

theorem decodeEnts_encChars (l : List Char) : decodeEnts (encChars l) = l := by
  induction l with
  | nil => rfl
  | cons c l ih =>
    by_cases hc : c = '&'
    · subst hc
      have h1 : encChars ('&' :: l) = '&' :: 'a' :: 'm' :: 'p' :: ';' :: encChars l := rfl
      have h2 : decodeEnts ('&' :: 'a' :: 'm' :: 'p' :: ';' :: encChars l) =
          '&' :: decodeEnts (encChars l) := rfl
      rw [h1, h2, ih]
    · by_cases hlt : c = '<'
      · subst hlt
        have h1 : encChars ('<' :: l) = '&' :: 'l' :: 't' :: ';' :: encChars l := rfl
        have h2 : decodeEnts ('&' :: 'l' :: 't' :: ';' :: encChars l) =
            '<' :: decodeEnts (encChars l) := rfl
        rw [h1, h2, ih]
      · rw [encChars_cons_other hc hlt, decodeEnts_cons_ne_amp hc, ih]

theorem encChars_no_lt (l : List Char) : ∀ c ∈ encChars l, ¬ c = '<' := by
  induction l with
  | nil => intro c hc; simp [encChars] at hc
  | cons a l ih =>
    intro c hc
    by_cases ha : a = '&'
    · subst ha
      rw [show encChars ('&' :: l) = '&' :: 'a' :: 'm' :: 'p' :: ';' :: encChars l
        from rfl] at hc
      simp only [List.mem_cons] at hc
      rcases hc with h | h | h | h | h | h
      · subst h; decide
      · subst h; decide
      · subst h; decide
      · subst h; decide
      · subst h; decide
      · exact ih c h
    · by_cases hb : a = '<'
      · subst hb
        rw [show encChars ('<' :: l) = '&' :: 'l' :: 't' :: ';' :: encChars l
          from rfl] at hc
        simp only [List.mem_cons] at hc
        rcases hc with h | h | h | h | h
        · subst h; decide
        · subst h; decide
        · subst h; decide
        · subst h; decide
        · exact ih c h
      · rw [encChars_cons_other ha hb] at hc
        simp only [List.mem_cons] at hc
        rcases hc with h | h
        · subst h; exact hb
        · exact ih c h

theorem encChars_no_quote {l : List Char} (h : ∀ c ∈ l, ¬ c = '"') :
    ∀ c ∈ encChars l, ¬ c = '"' := by
  induction l with
  | nil => intro c hc; simp [encChars] at hc
  | cons a l ih =>
    intro c hc
    have hl : ∀ d ∈ l, ¬ d = '"' := fun d hd => h d (List.mem_cons_of_mem a hd)
    by_cases ha : a = '&'
    · subst ha
      rw [show encChars ('&' :: l) = '&' :: 'a' :: 'm' :: 'p' :: ';' :: encChars l
        from rfl] at hc
      simp only [List.mem_cons] at hc
      rcases hc with hh | hh | hh | hh | hh | hh
      · subst hh; decide
      · subst hh; decide
      · subst hh; decide
      · subst hh; decide
      · subst hh; decide
      · exact ih hl c hh
    · by_cases hb : a = '<'
      · subst hb
        rw [show encChars ('<' :: l) = '&' :: 'l' :: 't' :: ';' :: encChars l
          from rfl] at hc
        simp only [List.mem_cons] at hc
        rcases hc with hh | hh | hh | hh | hh
        · subst hh; decide
        · subst hh; decide
        · subst hh; decide
        · subst hh; decide
        · exact ih hl c hh
      · rw [encChars_cons_other ha hb] at hc
        simp only [List.mem_cons] at hc
        rcases hc with hh | hh
        · subst hh; exact h _ (List.mem_cons_self _ _)
        · exact ih hl c hh

theorem encChars_ne_nil {l : List Char} (h : l ≠ []) : encChars l ≠ [] := by
  cases l with
  | nil => exact absurd rfl h
  | cons a l =>
    by_cases ha : a = '&'
    · subst ha
      rw [show encChars ('&' :: l) = '&' :: 'a' :: 'm' :: 'p' :: ';' :: encChars l
        from rfl]
      simp
    · by_cases hb : a = '<'
      · subst hb
        rw [show encChars ('<' :: l) = '&' :: 'l' :: 't' :: ';' :: encChars l from rfl]
        simp
      · rw [encChars_cons_other ha hb]
        simp

theorem span_append {A B : List Char} (p : Char → Bool)
    (hA : ∀ a ∈ A, p a = true)
    (hB : ∀ b B2, B = b :: B2 → p b = false) :
    (A ++ B).takeWhile p = A ∧ (A ++ B).dropWhile p = B := by
  induction A with
  | nil =>
    cases B with
    | nil => simp
    | cons b B2 =>
      have hb := hB b B2 rfl
      simp [List.takeWhile_cons, List.dropWhile_cons, hb]
  | cons a A ih =>
    have ha := hA a (List.mem_cons_self a A)
    have ihA : ∀ x ∈ A, p x = true := fun x hx => hA x (List.mem_cons_of_mem a hx)
    obtain ⟨ht, hd⟩ := ih ihA
    constructor
    · rw [List.cons_append, List.takeWhile_cons, ha]
      simp only [if_true]
      rw [ht]
    · rw [List.cons_append, List.dropWhile_cons, ha]
      simp only [if_true]
      exact hd

theorem dropAfterGt_through {A X : List Char} (hA : ∀ a ∈ A, ¬ a = '>') :
    dropAfterGt (A ++ '>' :: X) = X := by
  induction A with
  | nil => simp [dropAfterGt]
  | cons a A ih =>
    have ha := hA a (List.mem_cons_self a A)
    have ihA : ∀ x ∈ A, ¬ x = '>' := fun x hx => hA x (List.mem_cons_of_mem a hx)
    rw [List.cons_append, show dropAfterGt (a :: (A ++ '>' :: X)) =
      if a == '>' then A ++ '>' :: X else dropAfterGt (A ++ '>' :: X) from rfl,
      if_neg (by simpa using ha)]
    exact ih ihA

theorem dropWhile_ws_cons {b : Char} (hb : Pagination.isJsWS b = false) (X : List Char) :
    (b :: X).dropWhile Pagination.isJsWS = b :: X := by
  simp [List.dropWhile_cons, hb]

end Docx

namespace Docx

theorem nameOkChar_props {c : Char} (h : nameOkChar c = true) :
    isNameStop c = false ∧ Pagination.isJsWS c = false ∧ ¬ c = '?' ∧ ¬ c = '/' ∧
      ¬ c = '<' ∧ ¬ c = '&' ∧ ¬ c = '"' ∧ ¬ c = '>' ∧ ¬ c = '=' := by
  unfold nameOkChar at h
  simp only [Bool.and_eq_true, Bool.not_eq_true'] at h
  obtain ⟨⟨⟨⟨⟨⟨hstop, hq⟩, hs⟩, hlt⟩, ha⟩, hdq⟩, hsq⟩ := h
  refine ⟨hstop, ?_, ?_, ?_, ?_, ?_, ?_, ?_, ?_⟩
  · unfold isNameStop at hstop
    simp only [Bool.or_eq_false_iff] at hstop
    exact hstop.1.1.1
  · simpa using hq
  · simpa using hs
  · simpa using hlt
  · simpa using ha
  · simpa using hdq
  · unfold isNameStop at hstop
    simp only [Bool.or_eq_false_iff] at hstop
    simpa using hstop.1.2
  · unfold isNameStop at hstop
    simp only [Bool.or_eq_false_iff] at hstop
    simpa using hstop.2

theorem parseAttrs_stop (f : Nat) {c : Char} (hc : c = '/' ∨ c = '>')
    (rest2 : List Char) :
    parseAttrs (f + 1) (c :: rest2) = ([], c :: rest2) := by
  rcases hc with hc | hc
  · subst hc
    rfl
  · subst hc
    rfl

end Docx

namespace Docx

theorem parseAttrs_attr_step (f : Nat) (k v : String) (hk : nameOk k = true)
    (hv : ∀ c ∈ v.data, ¬ c = '"') (Y : List Char) :
    parseAttrs (f + 1) ((serAttr (k, v)).data ++ Y) =
      ((k, v) :: (parseAttrs f Y).1, (parseAttrs f Y).2) := by
  obtain ⟨hkne, hkchars⟩ : k.data ≠ [] ∧ ∀ c ∈ k.data, nameOkChar c = true := by
    unfold nameOk at hk
    simp only [Bool.and_eq_true] at hk
    constructor
    · simpa using hk.1
    · intro c hc
      exact List.all_eq_true.mp hk.2 c hc
  have hdata : (serAttr (k, v)).data ++ Y =
      ' ' :: (k.data ++ '=' :: '"' :: (encChars v.data ++ '"' :: Y)) := by
    have h1 : (" " : String).data = [' '] := rfl
    have h2 : ("=\"" : String).data = ['=', '"'] := rfl
    have h3 : ("\"" : String).data = ['"'] := rfl
    have h4 : (⟨encChars v.data⟩ : String).data = encChars v.data := rfl
    simp [serAttr, String.data_append, h1, h2, h3, h4]
  rw [hdata]
  obtain ⟨kc, ktl, hkd⟩ : ∃ kc ktl, k.data = kc :: ktl := by
    cases hkdata : k.data with
    | nil => exact absurd hkdata hkne
    | cons a b => exact ⟨a, b, rfl⟩
  have hkc := nameOkChar_props (hkchars kc (by rw [hkd]; exact List.mem_cons_self _ _))
  simp only [parseAttrs]
  rw [hkd]
  simp only [List.cons_append]
  rw [List.dropWhile_cons, if_pos (show Pagination.isJsWS ' ' = true from rfl),
    List.dropWhile_cons, if_neg (by simp [hkc.2.1])]
  have hif1 : (kc == '/' || kc == '>') = false := by
    simp [hkc.2.2.2.1, hkc.2.2.2.2.2.2.2.1]
  have hform : kc :: (ktl ++ '=' :: '\"' :: (encChars v.data ++ '\"' :: Y)) =
      k.data ++ '=' :: '\"' :: (encChars v.data ++ '\"' :: Y) := by
    rw [hkd, List.cons_append]
  have hsp := span_append (A := k.data)
    (B := '=' :: '\"' :: (encChars v.data ++ '\"' :: Y)) (fun d => !isNameStop d)
    (fun a ha => by simp [(nameOkChar_props (hkchars a ha)).1])
    (fun b B2 hb => by
      rw [List.cons.injEq] at hb
      rw [← hb.1]
      decide)
  simp only [hif1, Bool.false_eq_true, if_false, hform, hsp.1, hsp.2]
  have hsp2 := span_append (A := encChars v.data) (B := '\"' :: Y)
    (fun d => !(d == '\"'))
    (fun a ha => by simp [encChars_no_quote hv a ha])
    (fun b B2 hb => by
      rw [List.cons.injEq] at hb
      rw [← hb.1]
      decide)
  simp only [List.dropWhile_cons, show Pagination.isJsWS '=' = false from rfl,
    show Pagination.isJsWS '\"' = false from rfl, Bool.false_eq_true, if_false,
    show (('=' : Char) == '=') = true from rfl,
    show (('\"' : Char) == '\"' || ('\"' : Char) == squote) = true from rfl, if_true,
    hsp2.1, hsp2.2, decodeEnts_encChars]

end Docx

namespace Docx

theorem parseAttrs_ser (attrs : List (String × String)) :
    ∀ (f : Nat) (c : Char) (rest2 : List Char), attrs.length ≤ f →
      (∀ a ∈ attrs, attrOk a = true) → (c = '/' ∨ c = '>') →
      parseAttrs (f + 1) ((serAttrs attrs).data ++ c :: rest2) = (attrs, c :: rest2) := by
  induction attrs with
  | nil =>
    intro f c rest2 _ _ hc
    have h0 : (serAttrs []).data = [] := rfl
    rw [h0, List.nil_append]
    exact parseAttrs_stop f hc rest2
  | cons a as ih =>
    intro f c rest2 hlen hok hc
    obtain ⟨k, v⟩ := a
    have hser : (serAttrs ((k, v) :: as)).data =
        (serAttr (k, v)).data ++ (serAttrs as).data := by
      rw [show serAttrs ((k, v) :: as) = serAttr (k, v) ++ serAttrs as from rfl,
        String.data_append]
    rw [hser, List.append_assoc]
    have hofirst := hok (k, v) (List.mem_cons_self _ _)
    have hkok : nameOk k = true := by
      unfold attrOk at hofirst
      simp only [Bool.and_eq_true] at hofirst
      exact hofirst.1
    have hvok : ∀ ch ∈ v.data, ¬ ch = '"' := by
      unfold attrOk at hofirst
      simp only [Bool.and_eq_true, List.all_eq_true] at hofirst
      intro ch hch
      simpa using hofirst.2 ch hch
    cases f with
    | zero => simp at hlen
    | succ g =>
      rw [parseAttrs_attr_step (g + 1) k v hkok hvok]
      rw [ih g c rest2 (by simpa using hlen) (fun b hb => hok b (List.mem_cons_of_mem _ hb)) hc]

theorem serAttr_length_pos (a : String × String) : 1 ≤ (serAttr a).data.length := by
  have h : (serAttr a).data = ' ' :: (a.1 ++ "=\"" ++ (⟨encChars a.2.data⟩ : String) ++ "\"").data := by
    rw [show serAttr a = " " ++ (a.1 ++ "=\"" ++ (⟨encChars a.2.data⟩ : String) ++ "\"") by
      simp [serAttr, String.append_assoc]]
    rw [String.data_append]
    rfl
  rw [h]
  simp

theorem serAttrs_length_ge (attrs : List (String × String)) :
    attrs.length ≤ (serAttrs attrs).data.length := by
  induction attrs with
  | nil => simp [serAttrs]
  | cons a as ih =>
    rw [show serAttrs (a :: as) = serAttr a ++ serAttrs as from rfl, String.data_append,
      List.length_append]
    have := serAttr_length_pos a
    simp only [List.length_cons]
    omega

theorem XNode.parseSize_pos (n : XNode) : 1 ≤ n.parseSize := by
  cases n with
  | text s => exact Nat.le_refl 1
  | elem nm attrs kids => simp [XNode.parseSize]

theorem XNodes.parseSize_list_pos (ns : XNodes) : 1 ≤ ns.parseSize := by
  cases ns with
  | nil => exact Nat.le_refl 1
  | cons hd tl =>
    have h1 := XNode.parseSize_pos hd
    have h2 : 0 ≤ XNodes.parseSize tl := Nat.zero_le _
    simp only [XNodes.parseSize]
    omega

theorem ser_elem_head (n : String) (attrs : List (String × String)) (kids : XNodes) :
    (XNode.ser (.elem n attrs kids)).data =
      '<' :: (n.data ++ (serAttrs attrs).data ++
        (match kids with
          | .nil => ("/>" : String).data
          | _ => (">" ++ kids.ser ++ "</" ++ n ++ ">" : String).data)) := by
  cases kids with
  | nil =>
    rw [show XNode.ser (.elem n attrs .nil) = "<" ++ n ++ serAttrs attrs ++ "/>" from rfl]
    simp [String.data_append, List.append_assoc]
  | cons hd tl =>
    rw [show XNode.ser (.elem n attrs (.cons hd tl)) =
      "<" ++ n ++ serAttrs attrs ++ ">" ++ XNodes.ser (.cons hd tl) ++ "</" ++ n ++ ">"
      from rfl]
    simp [String.data_append, List.append_assoc]

end Docx

namespace Docx

/-- A valid continuation for the node-sequence parser: end of input or the
start of a close tag. -/
def stopOk (rest : List Char) : Prop :=
  rest = [] ∨ ∃ r2, rest = '<' :: '/' :: r2

theorem wfXs_cons {hd : XNode} {tl : XNodes} (h : wfXs (.cons hd tl) = true) :
    wfX hd = true ∧ wfXs tl = true ∧ (hd.isTextNode = false ∨ elemHeaded tl = true) := by
  unfold wfXs at h
  simp only [Bool.and_eq_true, Bool.or_eq_true, Bool.not_eq_true'] at h
  exact ⟨h.1.1, h.1.2, h.2⟩

theorem wfX_text {s : String} (h : wfX (.text s) = true) : s.data ≠ [] := by
  unfold wfX at h
  simpa using h

theorem wfX_elem {n : String} {attrs : List (String × String)} {kids : XNodes}
    (h : wfX (.elem n attrs kids) = true) :
    nameOk n = true ∧ (∀ a ∈ attrs, attrOk a = true) ∧ wfXs kids = true := by
  unfold wfX at h
  simp only [Bool.and_eq_true, List.all_eq_true] at h
  exact ⟨h.1.1, fun a ha => h.1.2 a ha, h.2⟩

theorem nameOk_chars {n : String} (h : nameOk n = true) :
    n.data ≠ [] ∧ ∀ c ∈ n.data, nameOkChar c = true := by
  unfold nameOk at h
  simp only [Bool.and_eq_true, List.all_eq_true, Bool.not_eq_true'] at h
  constructor
  · simpa using h.1
  · exact h.2

/-- The continuation after a node's serialization either is empty or starts
with `<`. -/
theorem cont_head {tl : XNodes} {rest : List Char} (hwtl : wfXs tl = true)
    (hstop : stopOk rest) (hhead : elemHeaded tl = true) :
    ∀ b B2, (XNodes.ser tl).data ++ rest = b :: B2 → b = '<' := by
  intro b B2 hb
  cases tl with
  | nil =>
    rw [show (XNodes.ser .nil).data = [] from rfl, List.nil_append] at hb
    rcases hstop with h | ⟨r2, h⟩
    · rw [h] at hb
      cases hb
    · rw [h] at hb
      rw [List.cons.injEq] at hb
      exact hb.1.symm
  | cons hd tl2 =>
    cases hd with
    | text s => simp [elemHeaded] at hhead
    | elem n attrs kids =>
      rw [show XNodes.ser (.cons (.elem n attrs kids) tl2) =
        XNode.ser (.elem n attrs kids) ++ XNodes.ser tl2 from rfl, String.data_append,
        ser_elem_head, List.cons_append, List.cons_append] at hb
      rw [List.cons.injEq] at hb
      exact hb.1.symm

theorem parseNodes_ser :
    ∀ (fuel : Nat) (ns : XNodes) (rest : List Char),
      XNodes.parseSize ns ≤ fuel → wfXs ns = true → stopOk rest →
      parseNodes fuel ((XNodes.ser ns).data ++ rest) = (ns, rest) := by
  intro fuel
  induction fuel with
  | zero =>
    intro ns rest hsz hwf hstop
    have := XNodes.parseSize_list_pos ns
    omega
  | succ f ih =>
    intro ns rest hsz hwf hstop
    cases ns with
    | nil =>
      rw [show (XNodes.ser .nil).data = [] from rfl, List.nil_append]
      rcases hstop with h | ⟨r2, h⟩
      · subst h
        rfl
      · subst h
        rfl
    | cons hd tl =>
      obtain ⟨hwhd, hwtl, hadj⟩ := wfXs_cons hwf
      cases hd with
      | text s =>
        have hhd : elemHeaded tl = true := by
          rcases hadj with h | h
          · simp [XNode.isTextNode] at h
          · exact h
        have hne : s.data ≠ [] := wfX_text hwhd
        rw [show XNodes.ser (.cons (.text s) tl) = XNode.ser (.text s) ++ XNodes.ser tl
          from rfl, String.data_append,
          show (XNode.ser (.text s)).data = encChars s.data from rfl, List.append_assoc]
        obtain ⟨e0, etl, he⟩ : ∃ e0 etl, encChars s.data = e0 :: etl := by
          cases hE : encChars s.data with
          | nil => exact absurd hE (encChars_ne_nil hne)
          | cons a b => exact ⟨a, b, rfl⟩
        have he0lt : ¬ e0 = '<' := encChars_no_lt s.data e0 (by
          rw [he]
          exact List.mem_cons_self _ _)
        have hsp := span_append (A := encChars s.data)
          (B := (XNodes.ser tl).data ++ rest) (fun d => !(d == '<'))
          (fun a ha => by simp [encChars_no_lt s.data a ha])
          (fun b B2 hb => by
            rw [cont_head hwtl hstop hhd b B2 hb]
            decide)
        simp only [parseNodes]
        rw [he, List.cons_append]
        simp only [show (e0 == '<') = false by simpa using he0lt, Bool.false_eq_true,
          if_false, ← List.cons_append, ← he, hsp.1, hsp.2, decodeEnts_encChars]
        rw [ih tl rest (by
            have h1 := XNode.parseSize_pos (XNode.text s)
            simp only [XNodes.parseSize, XNode.parseSize] at hsz ⊢
            omega) hwtl hstop]
      | elem n attrs kids =>
        obtain ⟨hn, hattrs, hwkids⟩ := wfX_elem hwhd
        obtain ⟨hnne, hnchars⟩ := nameOk_chars hn
        obtain ⟨nc, ntl, hnd⟩ : ∃ nc ntl, n.data = nc :: ntl := by
          cases hN : n.data with
          | nil => exact absurd hN hnne
          | cons a b => exact ⟨a, b, rfl⟩
        have hncp := nameOkChar_props (hnchars nc (by
          rw [hnd]
          exact List.mem_cons_self _ _))
        have hserdata : (XNodes.ser (.cons (.elem n attrs kids) tl)).data =
            (XNode.ser (.elem n attrs kids)).data ++ (XNodes.ser tl).data := by
          rw [show XNodes.ser (.cons (.elem n attrs kids) tl) =
            XNode.ser (.elem n attrs kids) ++ XNodes.ser tl from rfl, String.data_append]
        have hattrhead : ∀ (W : List Char), (∀ b B2, W = b :: B2 → isNameStop b = true) →
            ∀ b B2, ((serAttrs attrs).data ++ W) = b :: B2 → (!isNameStop b) = false := by
          intro W hW b B2 hb
          cases attrs with
          | nil =>
            rw [show (serAttrs []).data = [] from rfl, List.nil_append] at hb
            simp [hW b B2 hb]
          | cons a1 as1 =>
            rw [show (serAttrs (a1 :: as1)).data =
              ' ' :: ((a1.1 ++ "=\"" ++ (⟨encChars a1.2.data⟩ : String) ++ "\"" ++
                serAttrs as1).data) by
                rw [show serAttrs (a1 :: as1) = serAttr a1 ++ serAttrs as1 from rfl]
                rw [show serAttr a1 ++ serAttrs as1 = " " ++ (a1.1 ++ "=\"" ++
                  (⟨encChars a1.2.data⟩ : String) ++ "\"" ++ serAttrs as1) by
                  simp [serAttr, String.append_assoc]]
                rw [String.data_append]
                rfl, List.cons_append] at hb
            rw [List.cons.injEq] at hb
            rw [← hb.1]
            decide
        cases kids with
        | nil =>
          rw [hserdata, ser_elem_head, List.append_assoc, List.cons_append]
          have hZdef : (("/>" : String).data ++ ((XNodes.ser tl).data ++ rest)) =
              '/' :: '>' :: ((XNodes.ser tl).data ++ rest) := rfl
          rw [List.append_assoc, List.append_assoc, hZdef]
          have hspn := span_append (A := n.data)
            (B := (serAttrs attrs).data ++ '/' :: '>' :: (tl.ser.data ++ rest))
            (fun d => !isNameStop d)
            (fun a ha => by simp [(nameOkChar_props (hnchars a ha)).1])
            (hattrhead ('/' :: '>' :: (tl.ser.data ++ rest))
              (fun b B2 hb => by
                rw [List.cons.injEq] at hb
                rw [← hb.1]
                decide))
          have hspn1 : List.takeWhile (fun d => !isNameStop d)
              (nc :: (ntl ++ ((serAttrs attrs).data ++ '/' :: '>' ::
                (tl.ser.data ++ rest)))) = n.data := by
            rw [← List.cons_append, ← hnd]
            exact hspn.1
          have hspn2 : List.dropWhile (fun d => !isNameStop d)
              (nc :: (ntl ++ ((serAttrs attrs).data ++ '/' :: '>' ::
                (tl.ser.data ++ rest)))) =
              (serAttrs attrs).data ++ '/' :: '>' :: (tl.ser.data ++ rest) := by
            rw [← List.cons_append, ← hnd]
            exact hspn.2
          simp only [parseNodes]
          rw [hnd, List.cons_append]
          simp only [show (('<' : Char) == '<') = true from rfl, if_true,
            show (nc == '/') = false by simpa using hncp.2.2.2.1,
            show (nc == '?') = false by simpa using hncp.2.2.1, Bool.false_eq_true,
            if_false, hspn1, hspn2]
          have hflen : ((serAttrs attrs).data ++ '/' :: '>' :: (tl.ser.data ++ rest)).length =
              ((serAttrs attrs).data.length + 1 + (tl.ser.data ++ rest).length) + 1 := by
            simp only [List.length_append, List.length_cons]
            omega
          rw [hflen]
          rw [parseAttrs_ser attrs _ '/' ('>' :: (tl.ser.data ++ rest))
            (by
              have := serAttrs_length_ge attrs
              omega)
            hattrs (Or.inl rfl)]
          show (XNodes.cons (XNode.elem ⟨n.data⟩ attrs .nil)
              (parseNodes f (tl.ser.data ++ rest)).1,
            (parseNodes f (tl.ser.data ++ rest)).2) =
            (XNodes.cons (XNode.elem n attrs .nil) tl, rest)
          rw [ih tl rest (by
              simp only [XNodes.parseSize, XNode.parseSize] at hsz ⊢
              omega) hwtl hstop]
        | cons k1 ktl2 =>
          have h1 : ((">" : String)).data = ['>'] := rfl
          have h2 : (("</" : String)).data = ['<', '/'] := rfl
          have hinput : (XNodes.cons (XNode.elem n attrs (.cons k1 ktl2)) tl).ser.data ++
              rest =
              '<' :: (n.data ++ ((serAttrs attrs).data ++ '>' ::
                ((XNodes.ser (.cons k1 ktl2)).data ++ '<' :: '/' ::
                  (n.data ++ '>' :: (tl.ser.data ++ rest))))) := by
            rw [hserdata, ser_elem_head]
            simp only [String.data_append, h1, h2, List.append_assoc, List.cons_append,
              List.nil_append]
          rw [hinput]
          have hspn := span_append (A := n.data)
            (B := (serAttrs attrs).data ++ '>' :: ((XNodes.ser (.cons k1 ktl2)).data ++
              '<' :: '/' :: (n.data ++ '>' :: (tl.ser.data ++ rest))))
            (fun d => !isNameStop d)
            (fun a ha => by simp [(nameOkChar_props (hnchars a ha)).1])
            (hattrhead _
              (fun b B2 hb => by
                rw [List.cons.injEq] at hb
                rw [← hb.1]
                decide))
          have hspn1 : List.takeWhile (fun d => !isNameStop d)
              (nc :: (ntl ++ ((serAttrs attrs).data ++ '>' ::
                ((XNodes.ser (.cons k1 ktl2)).data ++ '<' :: '/' ::
                  (nc :: (ntl ++ '>' :: (tl.ser.data ++ rest))))))) = n.data := by
            rw [show nc :: (ntl ++ '>' :: (tl.ser.data ++ rest)) =
              n.data ++ '>' :: (tl.ser.data ++ rest) by rw [hnd, List.cons_append],
              ← List.cons_append, ← hnd]
            exact hspn.1
          have hspn2 : List.dropWhile (fun d => !isNameStop d)
              (nc :: (ntl ++ ((serAttrs attrs).data ++ '>' ::
                ((XNodes.ser (.cons k1 ktl2)).data ++ '<' :: '/' ::
                  (nc :: (ntl ++ '>' :: (tl.ser.data ++ rest))))))) =
              (serAttrs attrs).data ++ '>' :: ((XNodes.ser (.cons k1 ktl2)).data ++
                '<' :: '/' :: (nc :: (ntl ++ '>' :: (tl.ser.data ++ rest)))) := by
            rw [show nc :: (ntl ++ '>' :: (tl.ser.data ++ rest)) =
              n.data ++ '>' :: (tl.ser.data ++ rest) by rw [hnd, List.cons_append],
              ← List.cons_append, ← hnd]
            exact hspn.2
          simp only [parseNodes]
          rw [hnd]
          simp only [List.cons_append]
          simp only [show (('<' : Char) == '<') = true from rfl, if_true,
            show (nc == '/') = false by simpa using hncp.2.2.2.1,
            show (nc == '?') = false by simpa using hncp.2.2.1, Bool.false_eq_true,
            if_false, hspn1, hspn2]
          have hflen : ((serAttrs attrs).data ++ '>' ::
              ((XNodes.ser (.cons k1 ktl2)).data ++ '<' :: '/' ::
                (nc :: (ntl ++ '>' :: (tl.ser.data ++ rest))))).length =
              ((serAttrs attrs).data.length +
                ((XNodes.ser (.cons k1 ktl2)).data ++ '<' :: '/' ::
                  (nc :: (ntl ++ '>' :: (tl.ser.data ++ rest)))).length) + 1 := by
            simp only [List.length_append, List.length_cons]
            omega
          rw [hflen]
          rw [parseAttrs_ser attrs _ '>'
            ((XNodes.ser (.cons k1 ktl2)).data ++ '<' :: '/' ::
              (nc :: (ntl ++ '>' :: (tl.ser.data ++ rest))))
            (by
              have := serAttrs_length_ge attrs
              omega)
            hattrs (Or.inr rfl)]
          show (XNodes.cons (XNode.elem ⟨n.data⟩ attrs
              (parseNodes f ((XNodes.ser (.cons k1 ktl2)).data ++ '<' :: '/' ::
                (nc :: (ntl ++ '>' :: (tl.ser.data ++ rest))))).1)
              (parseNodes f (dropCloseTag
                (parseNodes f ((XNodes.ser (.cons k1 ktl2)).data ++ '<' :: '/' ::
                  (nc :: (ntl ++ '>' :: (tl.ser.data ++ rest))))).2)).1,
            (parseNodes f (dropCloseTag
              (parseNodes f ((XNodes.ser (.cons k1 ktl2)).data ++ '<' :: '/' ::
                (nc :: (ntl ++ '>' :: (tl.ser.data ++ rest))))).2)).2) =
            (XNodes.cons (XNode.elem n attrs (.cons k1 ktl2)) tl, rest)
          rw [ih (.cons k1 ktl2) ('<' :: '/' :: (nc :: (ntl ++ '>' :: (tl.ser.data ++ rest))))
            (by
              have hkp := XNodes.parseSize_list_pos tl
              simp only [XNodes.parseSize, XNode.parseSize] at hsz ⊢
              omega) hwkids (Or.inr ⟨_, rfl⟩)]
          have hdct : dropCloseTag ('<' :: '/' ::
              (nc :: (ntl ++ '>' :: (tl.ser.data ++ rest)))) =
              tl.ser.data ++ rest := by
            rw [show dropCloseTag ('<' :: '/' ::
              (nc :: (ntl ++ '>' :: (tl.ser.data ++ rest)))) =
              dropAfterGt (nc :: (ntl ++ '>' :: (tl.ser.data ++ rest))) from rfl]
            rw [show nc :: (ntl ++ '>' :: (tl.ser.data ++ rest)) =
              n.data ++ '>' :: (tl.ser.data ++ rest) by rw [hnd, List.cons_append]]
            exact dropAfterGt_through (fun a ha =>
              (nameOkChar_props (hnchars a ha)).2.2.2.2.2.2.2.1)
          rw [hdct]
          rw [ih tl rest (by
              have hkp := XNodes.parseSize_list_pos (.cons k1 ktl2)
              simp only [XNodes.parseSize, XNode.parseSize] at hsz ⊢
              omega) hwtl hstop]

end Docx

namespace Docx

/-! ## String helpers shared by both codec directions

Small total models of the JavaScript string operations the codec uses
(`startsWith`, `toLowerCase`, `trim`, `split`, `includes`, digit filtering and
number printing).  All are structurally recursive so that concrete instances
evaluate in the kernel. -/

/-- Is the first list a prefix of the second? -/
def isPre : List Char → List Char → Bool
  | [], _ => true
  | _ :: _, [] => false
  | a :: as, b :: bs => a == b && isPre as bs

/-- `String.prototype.startsWith`. -/
def jsStartsWith (s t : String) : Bool := isPre t.data s.data

/-- `String.prototype.includes` / substring containment. -/
def containsSub (needle : List Char) : List Char → Bool
  | [] => isPre needle []
  | c :: rest => isPre needle (c :: rest) || containsSub needle rest

/-- `String.prototype.toLowerCase` (ASCII, which is all the codec feeds it). -/
def jsToLower (s : String) : String := ⟨s.data.map Char.toLower⟩

/-- `String.prototype.trim` (string-level wrapper of the character model). -/
def strTrim (s : String) : String := ⟨Pagination.jsTrim s.data⟩

/-- `val.replace(/[^0-9]/g, "")`: keep only decimal digits. -/
def digitsOnly (s : String) : String := ⟨s.data.filter (fun c => c.isDigit)⟩

/-- `String.prototype.split` on a single separator character. -/
def splitOnCh (c : Char) : List Char → List (List Char)
  | [] => [[]]
  | d :: rest =>
    match splitOnCh c rest with
    | [] => if d == c then [[], []] else [[d]]
    | g :: gs => if d == c then [] :: g :: gs else (d :: g) :: gs

/-- Decimal digit characters of a natural number; the fuel dominates the
digit count (callers pass `n + 1`). -/
def natDigits : Nat → Nat → List Char
  | 0, _ => []
  | fuel + 1, n =>
    if n < 10 then [Char.ofNat (48 + n)]
    else natDigits fuel (n / 10) ++ [Char.ofNat (48 + n % 10)]

/-- Decimal rendering of a natural number. -/
def natStr (n : Nat) : String := ⟨natDigits (n + 1) n⟩

/-- JavaScript template interpolation of an integral number value
(`${...}` on an integer prints its decimal form). -/
def jsIntStr (i : ℤ) : String :=
  if i < 0 then "-" ++ natStr (-i).toNat else natStr i.toNat

/-- JavaScript printing of a number known to be `k/100`: an integer prints
with no point, else trailing zeros of the fraction are dropped (the shortest
decimal representation of such a value). -/
def jsHundredthsStr (k : ℤ) : String :=
  let sign := if k < 0 then "-" else ""
  let m := k.natAbs
  let ip := natStr (m / 100)
  let fr := m % 100
  if fr = 0 then sign ++ ip
  else if fr % 10 = 0 then sign ++ ip ++ "." ++ natStr (fr / 10)
  else if fr < 10 then sign ++ ip ++ ".0" ++ natStr fr
  else sign ++ ip ++ "." ++ natStr fr

/-- JavaScript printing of `v / 2` for an integer `v` (`val / 2` in the
font-size import): a half-integer, i.e. `(v * 50) / 100`. -/
def jsHalfStr (v : ℤ) : String := jsHundredthsStr (v * 50)

/-! ## DOM accessors -/

/-- `Element.getAttribute` on a node. -/
def XNode.getAttr : XNode → String → Option String
  | .text _, _ => none
  | .elem _ attrs _, nm => lookupAttr attrs nm

/-- `Node.childNodes`. -/
def XNode.children : XNode → XNodes
  | .text _ => .nil
  | .elem _ _ kids => kids

mutual

/-- All descendant nodes in document order (self excluded). -/
def XNode.desc : XNode → List XNode
  | .text _ => []
  | .elem _ _ kids => kids.descList

def XNodes.descList : XNodes → List XNode
  | .nil => []
  | .cons hd tl => hd :: (hd.desc ++ tl.descList)

end

/-- `querySelectorAll` with a comma list of tag selectors: the descendant
elements whose tag name is in the list, in document order. -/
def XNode.queryAll (n : XNode) (tags : List String) : List XNode :=
  n.desc.filter (fun d =>
    match d with
    | .elem nm _ _ => tags.any (fun t => t = nm)
    | .text _ => false)

end Docx

namespace Docx

/-! ## The importer's recursive traversal (parseDocxFile)

Embedding of `traverse` (src/services/docxService.ts lines 90-201): the
recursive walk over the parsed `document.xml` DOM that produces the editor's
markup.  `imageMap` is the relationship-id-to-data-URI lookup built in step 1
of the importer.  Text nodes yield nothing; `tbl`/`tr`/`tc` map to table
markup; a `drawing` with a resolvable `blip`/`r:embed` becomes an `img` tag
and otherwise falls through to the default transparent case; `p` and `r`
rebuild block/inline styling from their `pPr`/`rPr`; `t` yields its text
content; `br` a line break; every other element is transparent (its children
are traversed in place). -/

/-- The `drawing` branch's lookup: the first `blip` descendant's `r:embed`
attribute resolved through the image map; `none` when any step fails or
yields an empty (falsy) string. -/
def drawingImg (el : XNode) (imageMap : List (String × String)) : Option String :=
  match el.firstByName "blip" with
  | none => none
  | some blip =>
    match blip.getAttr "r:embed" with
    | none => none
    | some embedId =>
      if embedId = "" then none
      else
        match lookupAttr imageMap embedId with
        | none => none
        | some b64 => if b64 = "" then none else some b64

/-- The `p` branch's tag computation: `h<digits>` when the paragraph style is
a heading, else `p`. -/
def pTagType (el : XNode) : String :=
  match el.firstByName "pPr" with
  | none => "p"
  | some pp =>
    match pp.firstByName "pStyle" with
    | none => "p"
    | some ps =>
      match ps.getAttr "w:val" with
      | none => "p"
      | some v =>
        if !(v == "") && jsStartsWith (jsToLower v) "heading" then
          let level := digitsOnly v
          if level = "" then "p" else "h" ++ level
        else "p"

/-- The `p` branch's inline style accumulation (alignment, then line
spacing). -/
def pStyleOf (el : XNode) : String :=
  match el.firstByName "pPr" with
  | none => ""
  | some pp =>
    (match pp.firstByName "jc" with
     | none => ""
     | some jc =>
       match jc.getAttr "w:val" with
       | none => ""
       | some v =>
         if v = "both" then "text-align: justify;"
         else if v = "" then "" else "text-align: " ++ v ++ ";") ++
    (match pp.firstByName "spacing" with
     | none => ""
     | some sp =>
       match sp.getAttr "w:line", sp.getAttr "w:lineRule" with
       | some line, some rule =>
         if !(line == "") && rule == "auto" then
           match parseIntJs line with
           | some v => "line-height: " ++
               jsHundredthsStr (jsRound (((v : ℚ) / 240) * 100)) ++ ";"
           | none => ""
         else ""
       | _, _ => "")

/-- The `r` branch's style accumulation (color, highlight, font size). -/
def rStyleOf (rp : XNode) : String :=
  (match rp.firstByName "color" with
   | none => ""
   | some cEl =>
     match cEl.getAttr "w:val" with
     | none => ""
     | some v => if !(v == "") && !(v == "auto") then "color: #" ++ v ++ ";" else "") ++
  (match rp.firstByName "highlight" with
   | none => ""
   | some hEl =>
     match hEl.getAttr "w:val" with
     | none => ""
     | some v => if v = "" then "" else "background-color: " ++ v ++ ";") ++
  (match rp.firstByName "sz" with
   | none => ""
   | some sEl =>
     let raw := (sEl.getAttr "w:val").getD "0"
     match parseIntJs (if raw = "" then "0" else raw) with
     | some v => if 0 < v then "font-size: " ++ jsHalfStr v ++ "pt;" else ""
     | none => "")

mutual

def traverse (imageMap : List (String × String)) : XNode → String
  | .text _ => ""
  | .elem nm attrs kids =>
    let el : XNode := .elem nm attrs kids
    let tag := localPart nm
    if tag = "tbl" then
      "<table style=\"width:100%; border-collapse: collapse; border: 1px solid #000;\">" ++
        traverseList imageMap kids ++ "</table>"
    else if tag = "tr" then "<tr>" ++ traverseList imageMap kids ++ "</tr>"
    else if tag = "tc" then
      "<td style=\"border: 1px solid #ccc; padding: 4px;\">" ++
        traverseList imageMap kids ++ "</td>"
    else if tag = "drawing" then
      match drawingImg el imageMap with
      | some b64 => "<img src=\"" ++ b64 ++ "\" style=\"max-width: 100%; height: auto;\" />"
      | none => traverseList imageMap kids
    else if tag = "p" then
      let tagType := pTagType el
      let style := pStyleOf el
      let inner := traverseList imageMap kids
      "<" ++ tagType ++
        (if style = "" then "" else " style=\"" ++ strTrim style ++ "\"") ++ ">" ++
        inner ++ "</" ++ tagType ++ ">"
    else if tag = "r" then
      match el.firstByName "rPr" with
      | none => traverseList imageMap kids
      | some rp =>
        let pre := (if rp.hasByName "b" then "<b>" else "") ++
          (if rp.hasByName "i" then "<i>" else "") ++
          (if rp.hasByName "u" then "<u>" else "")
        let suf := (if rp.hasByName "u" then "</u>" else "") ++
          (if rp.hasByName "i" then "</i>" else "") ++
          (if rp.hasByName "b" then "</b>" else "")
        let style := rStyleOf rp
        let content := pre ++ traverseList imageMap kids ++ suf
        if style = "" then content
        else "<span style=\"" ++ strTrim style ++ "\">" ++ content ++ "</span>"
    else if tag = "t" then el.textContent
    else if tag = "br" then "<br/>"
    else traverseList imageMap kids

def traverseList (imageMap : List (String × String)) : XNodes → String
  | .nil => ""
  | .cons hd tl => traverse imageMap hd ++ traverseList imageMap tl

end

/-- The markup-producing part of `parseDocxFile` (lines 89-205): find the
first `body` element of the parsed document and join the traversals of its
children; an absent body leaves the markup empty. -/
def importHtml (imageMap : List (String × String)) (docNodes : XNodes) : String :=
  match (XNodes.byName "body" docNodes).head? with
  | none => ""
  | some b => traverseList imageMap b.children

end Docx

namespace Docx

/-! ## The exporter (saveToDocx)

Embedding of the body-XML production of `saveToDocx`
(src/services/docxService.ts lines 217-382).  The two closure variables
`imageCounter` and `imagesToAdd` are threaded as an explicit state record;
`processRunContent` and `processBlock` otherwise transcribe the source
string-for-string (the long template literals are byte-for-byte the source's,
with `${...}` splices replaced by explicit concatenation). -/

/-- The `PageSettings` interface (src/types.ts). -/
structure PageSettings where
  marginTop : ℚ
  marginBottom : ℚ
  marginLeft : ℚ
  marginRight : ℚ
  firstLineIndent : ℚ
  hasHeader : Bool
  hasFooter : Bool
  headerText : Option String
  footerText : Option String

/-- The default used when `saveToDocx` receives no settings
(`settings || { marginTop: 25.4, ... }`). -/
def defaultMg : PageSettings :=
  { marginTop := 254 / 10, marginBottom := 254 / 10, marginLeft := 254 / 10,
    marginRight := 254 / 10, firstLineIndent := 0,
    hasHeader := true, hasFooter := true, headerText := none, footerText := none }

/-- The run-context object (`{bold: false}` at block level; absent fields are
falsy). -/
structure RunCtx where
  bold : Bool
  italic : Bool
  underline : Bool

/-- One entry of `imagesToAdd`. -/
structure ImgRec where
  id : String
  data : String
  ext : String

/-- The exporter's mutable closure state: `imageCounter` and `imagesToAdd`. -/
structure ExportSt where
  counter : Nat
  images : List ImgRec

/-- `getNextRelId`: derived from the current `imagesToAdd` length. -/
def getNextRelId (st : ExportSt) : String := "rId" ++ natStr (st.images.length + 5)

/-- `parts[0].match(/:(.*?);/)`: the text between the first colon and the
first semicolon after it, when both exist. -/
def mimeOf (part0 : String) : Option String :=
  match part0.data.dropWhile (fun c => !(c == ':')) with
  | [] => none
  | _ :: rest =>
    if (rest.dropWhile (fun c => !(c == ';'))).isEmpty then none
    else some ⟨rest.takeWhile (fun c => !(c == ';'))⟩

/-- The image-run XML template of `processRunContent` (lines 297-313). -/
def imgXml (counter : Nat) (relId : String) : String :=
  "<w:r>\n                            <w:drawing>\n                                <wp:inline distT=\"0\" distB=\"0\" distL=\"0\" distR=\"0\">\n                                    <wp:extent cx=\"3000000\" cy=\"2000000\"/>\n                                    <wp:docPr id=\"" ++
    natStr counter ++
    "\" name=\"Picture " ++
    natStr counter ++
    "\"/>\n                                    <a:graphic xmlns:a=\"http://schemas.openxmlformats.org/drawingml/2006/main\">\n                                        <a:graphicData uri=\"http://schemas.openxmlformats.org/drawingml/2006/picture\">\n                                            <pic:pic xmlns:pic=\"http://schemas.openxmlformats.org/drawingml/2006/picture\">\n                                                <pic:nvPicPr><pic:cNvPr id=\"" ++
    natStr counter ++
    "\" name=\"img\"/><pic:cNvPicPr/></pic:nvPicPr>\n                                                <pic:blipFill><a:blip r:embed=\"" ++
    relId ++
    "\"/><a:stretch><a:fillRect/></a:stretch></pic:blipFill>\n                                                <pic:spPr><a:xfrm><a:off x=\"0\" y=\"0\"/><a:ext cx=\"3000000\" cy=\"2000000\"/></a:xfrm><a:prstGeom prst=\"rect\"><a:avLst/></a:prstGeom></pic:spPr>\n                                            </pic:pic>\n                                        </a:graphicData>\n                                    </a:graphic>\n                                </wp:inline>\n                            </w:drawing>\n                         </w:r>"

mutual

/-- One node of `processRunContent`'s `forEach` body (lines 264-325): a
non-empty text node becomes a run whose `rPr` reflects the context; an `img`
with a data URI registers an image and emits a drawing run; any other element
recurses into its children with the context extended by `b`/`strong`,
`i`/`em`, `u`. -/
def processRunNode : XNode → RunCtx → ExportSt → String × ExportSt
  | .text s, ctx, st =>
    if s = "" then ("", st)
    else
      let rPr := (if ctx.bold then "<w:b/>" else "") ++
        (if ctx.italic then "<w:i/>" else "") ++
        (if ctx.underline then "<w:u w:val=\x27single\x27/>" else "")
      ("<w:r>" ++ (if rPr = "" then "" else "<w:rPr>" ++ rPr ++ "</w:rPr>") ++
        "<w:t xml:space=\"preserve\">" ++ escapeXmlText s ++ "</w:t></w:r>", st)
  | .elem nm attrs kids, ctx, st =>
    let tag := jsToLower nm
    if tag = "img" then
      match lookupAttr attrs "src" with
      | some src =>
        if !(src == "") && jsStartsWith src "data:image" then
          let counter2 := st.counter + 1
          let relId := getNextRelId st
          let parts := splitOnCh ',' src.data
          let ext := match mimeOf ⟨parts.headD []⟩ with
            | some m => if containsSub ("png").data m.data then "png" else "jpeg"
            | none => "jpeg"
          -- `parts[1]` is undefined when the URI has no comma; the undefined
          -- payload (never re-read by the document part) is modelled as "".
          let st2 : ExportSt :=
            ⟨counter2, st.images ++ [⟨relId, ⟨parts.getD 1 []⟩, ext⟩]⟩
          (imgXml counter2 relId, st2)
        else ("", st)
      | none => ("", st)
    else
      let ctx2 : RunCtx :=
        ⟨ctx.bold || tag = "b" || tag = "strong",
         ctx.italic || tag = "i" || tag = "em",
         ctx.underline || tag = "u"⟩
      processRunContent kids ctx2 st

/-- `processRunContent` over a node list: concatenate the per-node results,
threading the image state left to right. -/
def processRunContent : XNodes → RunCtx → ExportSt → String × ExportSt
  | .nil, _, st => ("", st)
  | .cons hd tl, ctx, st =>
    let r1 := processRunNode hd ctx st
    let r2 := processRunContent tl ctx r1.2
    (r1.1 ++ r2.1, r2.2)

end

/-- One table cell of `processBlock`'s table branch (lines 335-341). -/
def processCell (td : XNode) (st : ExportSt) : String × ExportSt :=
  let r := processRunContent td.children ⟨false, false, false⟩ st
  ("<w:tc>\n                        <w:tcPr><w:tcW w:w=\"0\" w:type=\"auto\"/><w:tcBorders><w:top w:val=\"single\" w:sz=\"4\"/><w:left w:val=\"single\" w:sz=\"4\"/><w:bottom w:val=\"single\" w:sz=\"4\"/><w:right w:val=\"single\" w:sz=\"4\"/></w:tcBorders></w:tcPr>\n                        <w:p><w:r>" ++
    r.1 ++
    "</w:r></w:p>\n                     </w:tc>", r.2)

/-- `.map(td => ...).join("")` over the cells of a row. -/
def processCells : List XNode → ExportSt → String × ExportSt
  | [], st => ("", st)
  | td :: tds, st =>
    let r1 := processCell td st
    let r2 := processCells tds r1.2
    (r1.1 ++ r2.1, r2.2)

/-- One table row (lines 334-342): its `td, th` descendant cells. -/
def processRow (tr : XNode) (st : ExportSt) : String × ExportSt :=
  let r := processCells (tr.queryAll ["td", "th"]) st
  ("<w:tr>" ++ r.1 ++ "</w:tr>", r.2)

/-- `.map(tr => ...).join("")` over the rows of a table. -/
def processRows : List XNode → ExportSt → String × ExportSt
  | [], st => ("", st)
  | tr :: trs, st =>
    let r1 := processRow tr st
    let r2 := processRows trs r1.2
    (r1.1 ++ r2.1, r2.2)

/-- Model of the CSSOM inline-style lookup `el.style.textAlign`: the last
`text-align` declaration of the `style` attribute, with key and value
trimmed; `""` when absent. -/
def cssDecls (s : String) : List (String × String) :=
  (splitOnCh ';' s.data).filterMap (fun d =>
    match splitOnCh ':' d with
    | [k, v] => some (⟨Pagination.jsTrim k⟩, ⟨Pagination.jsTrim v⟩)
    | _ => none)

def styleTextAlign (attrs : List (String × String)) : String :=
  match lookupAttr attrs "style" with
  | none => ""
  | some s =>
    match ((cssDecls s).filter (fun kv => kv.1 = "text-align")).getLast? with
    | none => ""
    | some kv => kv.2

mutual

/-- `processBlock` (lines 327-362): text nodes yield nothing; `table` maps
its `tr` descendants; `p`, `li` and `h*` become paragraphs whose `pPr`
carries the heading style and alignment; every other element is transparent
(its children are processed in place). -/
def processBlock : XNode → ExportSt → String × ExportSt
  | .text _, st => ("", st)
  | .elem nm attrs kids, st =>
    let tag := jsToLower nm
    if tag = "table" then
      let r := processRows ((XNode.elem nm attrs kids).queryAll ["tr"]) st
      ("<w:tbl>\n                <w:tblPr><w:tblW w:w=\"0\" w:type=\"auto\"/><w:tblBorders><w:top w:val=\"single\" w:sz=\"4\"/><w:left w:val=\"single\" w:sz=\"4\"/><w:bottom w:val=\"single\" w:sz=\"4\"/><w:right w:val=\"single\" w:sz=\"4\"/><w:insideH w:val=\"single\" w:sz=\"4\"/><w:insideV w:val=\"single\" w:sz=\"4\"/></w:tblBorders></w:tblPr>\n                " ++
        r.1 ++ "\n             </w:tbl>", r.2)
    else if tag = "p" ∨ tag = "li" ∨ jsStartsWith tag "h" then
      let pPr0 := if tag = "h1" then "<w:pStyle w:val=\"Heading1\"/>" else ""
      let align := styleTextAlign attrs
      let pPr1 := pPr0 ++
        (if align = "" then ""
         else "<w:jc w:val=\"" ++ (if align = "justify" then "both" else align) ++ "\"/>")
      let pPr2 := if pPr1 = "" then "" else "<w:pPr>" ++ pPr1 ++ "</w:pPr>"
      let r := processRunContent kids ⟨false, false, false⟩ st
      ("<w:p>" ++ pPr2 ++ r.1 ++ "</w:p>", r.2)
    else processBlockList kids st

/-- `.map(processBlock).join("")` over a child list, threading the state. -/
def processBlockList : XNodes → ExportSt → String × ExportSt
  | .nil, st => ("", st)
  | .cons hd tl, st =>
    let r1 := processBlock hd st
    let r2 := processBlockList tl r1.2
    (r1.1 ++ r2.1, r2.2)

end

/-- The main document part written by `saveToDocx` (lines 367-382), byte for
byte: the body XML produced by `processBlock` on the parsed body, the
conditional header/footer references, the fixed page size, and the margins
converted to twips. -/
def documentXml (body : XNode) (settings : Option PageSettings) : String :=
  let mg := settings.getD defaultMg
  let xmlBody := (processBlock body ⟨0, []⟩).1
  "<?xml version=\"1.0\" encoding=\"UTF-8\" standalone=\"yes\"?>\n<w:document xmlns:w=\"http://schemas.openxmlformats.org/wordprocessingml/2006/main\" \n    xmlns:r=\"http://schemas.openxmlformats.org/officeDocument/2006/relationships\"\n    xmlns:wp=\"http://schemas.openxmlformats.org/drawingml/2006/wordprocessingDrawing\"\n    xmlns:a=\"http://schemas.openxmlformats.org/drawingml/2006/main\"\n    xmlns:pic=\"http://schemas.openxmlformats.org/drawingml/2006/picture\">\n  <w:body>\n    " ++
    xmlBody ++
    "\n    <w:sectPr>\n        " ++
    (if mg.hasHeader then "<w:headerReference w:type=\"default\" r:id=\"rIdHeader\"/>" else "") ++
    "\n        " ++
    (if mg.hasFooter then "<w:footerReference w:type=\"default\" r:id=\"rIdFooter\"/>" else "") ++
    "\n        " ++
    "<w:pgSz w:w=\"11906\" w:h=\"16838\"/>" ++
    "\n        <w:pgMar w:top=\"" ++
    jsIntStr (mmToTwips mg.marginTop) ++
    "\" w:right=\"" ++
    jsIntStr (mmToTwips mg.marginRight) ++
    "\" w:bottom=\"" ++
    jsIntStr (mmToTwips mg.marginBottom) ++
    "\" w:left=\"" ++
    jsIntStr (mmToTwips mg.marginLeft) ++
    "\"/>\n    </w:sectPr>\n  </w:body>\n</w:document>"

end Docx

namespace Docx

/-! ## C1: the hello-world round trip

The concrete input of the round-trip property: the editor markup
`<p>Hello <b>World</b></p>`.  The exporter wraps the markup in a `div` and
parses it (`parseFromString`, `'text/html'`); for this plain markup the
resulting body DOM is the same tree the XML parser model yields. -/

def helloBody : XNode :=
  .elem "body" [] (.cons (.elem "div" [] (parseXmlDoc "<p>Hello <b>World</b></p>")) .nil)

/-- The `w:p` element the exporter produces for the hello-world markup, as a
tree (its serialization is the exporter body XML). -/
def wpTree : XNode :=
  .elem "w:p" [] (.cons (.elem "w:r" []
      (.cons (.elem "w:t" [("xml:space", "preserve")] (.cons (.text "Hello ") .nil)) .nil))
    (.cons (.elem "w:r" []
      (.cons (.elem "w:rPr" [] (.cons (.elem "w:b" [] .nil) .nil))
      (.cons (.elem "w:t" [("xml:space", "preserve")] (.cons (.text "World") .nil)) .nil)))
    .nil))

/-- The section-properties children of the exported document, per
header/footer flags: an omitted reference merges the surrounding template
whitespace into one text node. -/
def sectK (hH hF : Bool) (m1 m2 m3 m4 : String) : XNodes :=
  let href : XNode := .elem "w:headerReference" [("w:type", "default"), ("r:id", "rIdHeader")] .nil
  let fref : XNode := .elem "w:footerReference" [("w:type", "default"), ("r:id", "rIdFooter")] .nil
  let pgSz : XNode := .elem "w:pgSz" [("w:w", "11906"), ("w:h", "16838")] .nil
  let pgMar : XNode :=
    .elem "w:pgMar" [("w:top", m1), ("w:right", m2), ("w:bottom", m3), ("w:left", m4)] .nil
  let tail : XNodes := .cons pgSz (.cons (.text "\n        ") (.cons pgMar (.cons (.text "\n    ") .nil)))
  match hH, hF with
  | true, true =>
    .cons (.text "\n        ") (.cons href (.cons (.text "\n        ")
      (.cons fref (.cons (.text "\n        ") tail))))
  | true, false =>
    .cons (.text "\n        ") (.cons href (.cons (.text "\n        \n        ") tail))
  | false, true =>
    .cons (.text "\n        \n        ") (.cons fref (.cons (.text "\n        ") tail))
  | false, false =>
    .cons (.text "\n        \n        \n        ") tail

/-- The children of `w:body` in the exported document. -/
def bodyK (sk : XNodes) : XNodes :=
  .cons (.text "\n    ")
    (.cons wpTree
    (.cons (.text "\n    ")
    (.cons (.elem "w:sectPr" [] sk)
    (.cons (.text "\n  ") .nil))))

/-- The `xmlns` attributes of the exported `w:document` root. -/
def docAttrsC : List (String × String) :=
  [("xmlns:w", "http://schemas.openxmlformats.org/wordprocessingml/2006/main"),
   ("xmlns:r", "http://schemas.openxmlformats.org/officeDocument/2006/relationships"),
   ("xmlns:wp", "http://schemas.openxmlformats.org/drawingml/2006/wordprocessingDrawing"),
   ("xmlns:a", "http://schemas.openxmlformats.org/drawingml/2006/main"),
   ("xmlns:pic", "http://schemas.openxmlformats.org/drawingml/2006/picture")]

/-- The children of the exported `w:document` root. -/
def innerK (sk : XNodes) : XNodes :=
  .cons (.text "\n  ")
    (.cons (.elem "w:body" [] (bodyK sk))
    (.cons (.text "\n") .nil))

/-- The XML prolog the exporter writes (a processing instruction the XML
parser skips). -/
def dxPi : String := "<?xml version=\"1.0\" encoding=\"UTF-8\" standalone=\"yes\"?>"

/-- The full open tag of the exported `w:document` root. -/
def dxOpen : String := "<w:document xmlns:w=\"http://schemas.openxmlformats.org/wordprocessingml/2006/main\" \n    xmlns:r=\"http://schemas.openxmlformats.org/officeDocument/2006/relationships\"\n    xmlns:wp=\"http://schemas.openxmlformats.org/drawingml/2006/wordprocessingDrawing\"\n    xmlns:a=\"http://schemas.openxmlformats.org/drawingml/2006/main\"\n    xmlns:pic=\"http://schemas.openxmlformats.org/drawingml/2006/picture\">"

/-- `dxOpen` without the leading angle bracket. -/
def dxTail : String := "w:document xmlns:w=\"http://schemas.openxmlformats.org/wordprocessingml/2006/main\" \n    xmlns:r=\"http://schemas.openxmlformats.org/officeDocument/2006/relationships\"\n    xmlns:wp=\"http://schemas.openxmlformats.org/drawingml/2006/wordprocessingDrawing\"\n    xmlns:a=\"http://schemas.openxmlformats.org/drawingml/2006/main\"\n    xmlns:pic=\"http://schemas.openxmlformats.org/drawingml/2006/picture\">"

/-- `dxOpen` without the leading angle bracket and name head. -/
def dxTail2 : String := ":document xmlns:w=\"http://schemas.openxmlformats.org/wordprocessingml/2006/main\" \n    xmlns:r=\"http://schemas.openxmlformats.org/officeDocument/2006/relationships\"\n    xmlns:wp=\"http://schemas.openxmlformats.org/drawingml/2006/wordprocessingDrawing\"\n    xmlns:a=\"http://schemas.openxmlformats.org/drawingml/2006/main\"\n    xmlns:pic=\"http://schemas.openxmlformats.org/drawingml/2006/picture\">"

/-- The attribute region of `dxOpen` (after the element name, before the
closing angle bracket). -/
def dxAttrWs : String := " xmlns:w=\"http://schemas.openxmlformats.org/wordprocessingml/2006/main\" \n    xmlns:r=\"http://schemas.openxmlformats.org/officeDocument/2006/relationships\"\n    xmlns:wp=\"http://schemas.openxmlformats.org/drawingml/2006/wordprocessingDrawing\"\n    xmlns:a=\"http://schemas.openxmlformats.org/drawingml/2006/main\"\n    xmlns:pic=\"http://schemas.openxmlformats.org/drawingml/2006/picture\""

end Docx

namespace Docx

/-- The XML parser skips the exporter's prolog: one processing-instruction
step.  Pure partial evaluation over the concrete prolog characters, valid for
any continuation. -/
theorem parse_pi (f : Nat) (SYM : List Char) :
    parseNodes (f + 1) (dxPi.data ++ SYM) = parseNodes f SYM := rfl

/-- The newline between the prolog and the root element parses as one text
node when the continuation starts a tag. -/
theorem parse_nl (f : Nat) (SYM : List Char) :
    parseNodes (f + 1) ('\n' :: ('<' :: SYM)) =
      (.cons (.text "\n") (parseNodes f ('<' :: SYM)).1,
        (parseNodes f ('<' :: SYM)).2) := rfl

/-- The attribute list of the exported root element parses to the five
namespace declarations, for any continuation after the closing bracket. -/
theorem parse_doc_attrs (f : Nat) (SYM : List Char) :
    parseAttrs (f + 6) (dxAttrWs.data ++ ('>' :: SYM)) = (docAttrsC, '>' :: SYM) := rfl

end Docx

namespace Docx

set_option maxRecDepth 8000 in
theorem parse_document_open (f : Nat) (INNER : List Char) :
    parseNodes (f + 1) (dxOpen.data ++ INNER) =
      (.cons (.elem "w:document" docAttrsC (parseNodes f INNER).1)
         (parseNodes f (dropCloseTag (parseNodes f INNER).2)).1,
       (parseNodes f (dropCloseTag (parseNodes f INNER).2)).2) := by
  have h0 : dxOpen.data ++ INNER = '<' :: ('w' :: (dxTail2.data ++ INNER)) := rfl
  rw [h0]
  simp only [parseNodes]
  have htw : List.takeWhile (fun e => !isNameStop e) ('w' :: (dxTail2.data ++ INNER)) =
      ("w:document").data := rfl
  have hdw : List.dropWhile (fun e => !isNameStop e) ('w' :: (dxTail2.data ++ INNER)) =
      dxAttrWs.data ++ ('>' :: INNER) := rfl
  simp only [show (('<' : Char) == '<') = true from rfl, if_true,
    show (('w' : Char) == '/') = false from rfl,
    show (('w' : Char) == '?') = false from rfl, Bool.false_eq_true, if_false,
    htw, hdw]
  have hflen : (dxAttrWs.data ++ ('>' :: INNER)).length = (INNER.length + 376) + 6 := by
    simp only [List.length_append, List.length_cons,
      show dxAttrWs.data.length = 381 from rfl]
    omega
  rw [hflen, parse_doc_attrs (INNER.length + 376) INNER]
  rfl

end Docx

namespace Docx

/-- A character that needs no escaping and may sit in a double-quoted
attribute value. -/
def safeAttrChar (c : Char) : Bool := !(c == '&') && !(c == '<') && !(c == '"')

theorem natDigits_safe : ∀ (fuel n : Nat), ∀ c ∈ natDigits fuel n, safeAttrChar c = true := by
  intro fuel
  induction fuel with
  | zero => intro n c hc; simp [natDigits] at hc
  | succ g ih =>
    intro n c hc
    unfold natDigits at hc
    by_cases h : n < 10
    · rw [if_pos h] at hc
      rcases List.mem_singleton.mp hc with rfl
      have hd : ∀ k, k < 10 → safeAttrChar (Char.ofNat (48 + k)) = true := by decide
      exact hd n h
    · rw [if_neg h] at hc
      rcases List.mem_append.mp hc with h1 | h1
      · exact ih (n / 10) c h1
      · rcases List.mem_singleton.mp h1 with rfl
        have hd : ∀ k, k < 10 → safeAttrChar (Char.ofNat (48 + k)) = true := by decide
        exact hd (n % 10) (Nat.mod_lt _ (by omega))

theorem jsIntStr_safe (i : ℤ) : ∀ c ∈ (jsIntStr i).data, safeAttrChar c = true := by
  intro c hc
  unfold jsIntStr at hc
  by_cases h : i < 0
  · rw [if_pos h] at hc
    rw [String.data_append] at hc
    rcases List.mem_append.mp hc with h1 | h1
    · rcases List.mem_singleton.mp h1 with rfl
      decide
    · exact natDigits_safe _ _ c h1
  · rw [if_neg h] at hc
    exact natDigits_safe _ _ c hc

theorem encChars_id_of_safe : ∀ (l : List Char), (∀ c ∈ l, safeAttrChar c = true) →
    encChars l = l := by
  intro l
  induction l with
  | nil => intro _; rfl
  | cons c rest ih =>
    intro h
    have hc := h c (List.mem_cons_self _ _)
    unfold safeAttrChar at hc
    simp only [Bool.and_eq_true, Bool.not_eq_true'] at hc
    rw [encChars_cons_other (by simpa using hc.1.1) (by simpa using hc.1.2)]
    rw [ih (fun d hd => h d (List.mem_cons_of_mem _ hd))]

theorem jsIntStr_enc (i : ℤ) : encChars (jsIntStr i).data = (jsIntStr i).data :=
  encChars_id_of_safe _ (jsIntStr_safe i)

theorem jsIntStr_no_quote (i : ℤ) :
    (jsIntStr i).data.all (fun c => !(c == '"')) = true := by
  rw [List.all_eq_true]
  intro c hc
  have := jsIntStr_safe i c hc
  unfold safeAttrChar at this
  simp only [Bool.and_eq_true] at this
  exact this.2

end Docx

namespace Docx

theorem wf_innerK (hH hF : Bool) (i1 i2 i3 i4 : ℤ) :
    wfXs (innerK (sectK hH hF (jsIntStr i1) (jsIntStr i2) (jsIntStr i3) (jsIntStr i4))) =
      true := by
  cases hH <;> cases hF <;>
    simp [innerK, bodyK, sectK, wpTree, wfXs, wfX, attrOk, nameOk, nameOkChar, isNameStop,
      elemHeaded, XNode.isTextNode, jsIntStr_no_quote, Pagination.isJsWS, squote]

theorem parseSize_innerK (hH hF : Bool) (m1 m2 m3 m4 : String) :
    XNodes.parseSize (innerK (sectK hH hF m1 m2 m3 m4)) ≤ 40 := by
  cases hH <;> cases hF <;>
    simp [innerK, bodyK, sectK, wpTree, XNodes.parseSize, XNode.parseSize]

end Docx

namespace Docx

set_option maxRecDepth 8000 in
/-- The exported document string decomposes as prolog, newline, root open
tag, the serialization of the expected inner tree, and the root close tag.
The inner tree depends only on the header/footer flags and the four margin
strings. -/
theorem dx_data (s : PageSettings) :
    (documentXml helloBody (some s)).data =
      dxPi.data ++ ('\n' :: (dxOpen.data ++
        ((XNodes.ser (innerK (sectK s.hasHeader s.hasFooter
            (jsIntStr (mmToTwips s.marginTop)) (jsIntStr (mmToTwips s.marginRight))
            (jsIntStr (mmToTwips s.marginBottom)) (jsIntStr (mmToTwips s.marginLeft))))).data ++
          ("</w:document>").data))) := by
  have hxb : (processBlock helloBody ⟨0, []⟩).1 =
      "<w:p><w:r><w:t xml:space=\"preserve\">Hello </w:t></w:r><w:r><w:rPr><w:b/></w:rPr><w:t xml:space=\"preserve\">World</w:t></w:r></w:p>" := by
    decide
  cases hHc : s.hasHeader <;> cases hFc : s.hasFooter <;>
    (simp only [documentXml, Option.getD, hxb, hHc, hFc, if_true, Bool.false_eq_true,
      if_false]
     simp only [innerK, bodyK, sectK, wpTree, XNodes.ser, XNode.ser, serAttrs, serAttr,
       escapeXmlText]
     simp only [jsIntStr_enc]
     simp only [String.data_append, List.append_assoc]
     rfl)

end Docx

namespace Docx

set_option maxRecDepth 8000 in
/-- C1.  For the markup `<p>Hello <b>World</b></p>` and any `PageSettings`,
exporting (`saveToDocx`: `processBlock` on the parsed body, assembled into the
main document part) and then importing the result (`parseDocxFile`: XML
parse, then `traverse` under any image map) yields exactly
`<p>Hello <b>World</b></p>`: the text is preserved and the bold styling
extends exactly over `World`. -/
theorem docx_roundtrip_hello_world (s : PageSettings) (imageMap : List (String × String)) :
    importHtml imageMap (parseXmlDoc (documentXml helloBody (some s))) =
      "<p>Hello <b>World</b></p>" := by
  have hdata := dx_data s
  simp only [parseXmlDoc]
  rw [hdata]
  have hsp : ∀ X : List Char, dxOpen.data ++ X = '<' :: (dxTail.data ++ X) := fun X => rfl
  have hnl : ∀ (f : Nat) (X : List Char),
      parseNodes (f + 1) ('\n' :: (dxOpen.data ++ X)) =
        (.cons (.text "\n") (parseNodes f (dxOpen.data ++ X)).1,
          (parseNodes f (dxOpen.data ++ X)).2) := fun f X => rfl
  have hlen : (dxPi.data ++ ('\n' :: (dxOpen.data ++
      ((XNodes.ser (innerK (sectK s.hasHeader s.hasFooter
          (jsIntStr (mmToTwips s.marginTop)) (jsIntStr (mmToTwips s.marginRight))
          (jsIntStr (mmToTwips s.marginBottom)) (jsIntStr (mmToTwips s.marginLeft))))).data ++
        ("</w:document>").data)))).length =
      (XNodes.ser (innerK (sectK s.hasHeader s.hasFooter
          (jsIntStr (mmToTwips s.marginTop)) (jsIntStr (mmToTwips s.marginRight))
          (jsIntStr (mmToTwips s.marginBottom)) (jsIntStr (mmToTwips s.marginLeft))))).data.length
        + 462 := by
    simp only [List.length_append, List.length_cons,
      show dxPi.data.length = 55 from rfl, show dxOpen.data.length = 393 from rfl,
      show ("</w:document>").data.length = 13 from rfl]
    omega
  rw [hlen]
  obtain ⟨g, hg, hgle⟩ : ∃ g,
      (XNodes.ser (innerK (sectK s.hasHeader s.hasFooter
          (jsIntStr (mmToTwips s.marginTop)) (jsIntStr (mmToTwips s.marginRight))
          (jsIntStr (mmToTwips s.marginBottom)) (jsIntStr (mmToTwips s.marginLeft))))).data.length
        + 462 + 1 = g + 1 + 1 + 1 ∧ 40 ≤ g :=
    ⟨(XNodes.ser (innerK (sectK s.hasHeader s.hasFooter
          (jsIntStr (mmToTwips s.marginTop)) (jsIntStr (mmToTwips s.marginRight))
          (jsIntStr (mmToTwips s.marginBottom)) (jsIntStr (mmToTwips s.marginLeft))))).data.length
        + 460, by omega, by omega⟩
  rw [hg, parse_pi, hnl, parse_document_open]
  rw [parseNodes_ser g _ _
    (le_trans (parseSize_innerK s.hasHeader s.hasFooter _ _ _ _) hgle)
    (wf_innerK s.hasHeader s.hasFooter _ _ _ _)
    (Or.inr ⟨("w:document>").data, rfl⟩)]
  rw [show dropCloseTag (("</w:document>").data) = [] from rfl]
  have hnil : parseNodes g [] = (XNodes.nil, []) :=
    parseNodes_ser g .nil [] (by simp only [XNodes.parseSize]; omega) rfl (Or.inl rfl)
  rw [hnil]
  cases hHc : s.hasHeader <;> cases hFc : s.hasFooter <;> rfl

end Docx

namespace Docx

/-- The page-number placeholder markup the host inserts
(`<span class="page-number"><span>#</span></span>`), as the exporter's parsed
body sees it. -/
def pageNumberSpan : XNode :=
  .elem "span" [("class", "page-number")]
    (.cons (.elem "span" [] (.cons (.text "#") .nil)) .nil)

/-- C5 counterexample.  A paragraph holding the page-number placeholder
exports to a plain literal run: the body XML is
`<w:p><w:r><w:t xml:space="preserve">#</w:t></w:r></w:p>`, and no
field-character (`fldChar`) or field-instruction (`instrText`) markup occurs
anywhere in it, contradicting the claimed begin/instruction/separate/
cached-value/end expansion. -/
theorem pagenumber_plain_run_counterexample :
    (processBlock (.elem "p" [] (.cons pageNumberSpan .nil)) ⟨0, []⟩).1 =
      "<w:p><w:r><w:t xml:space=\"preserve\">#</w:t></w:r></w:p>" ∧
    containsSub ("fldChar").data
      ((processBlock (.elem "p" [] (.cons pageNumberSpan .nil)) ⟨0, []⟩).1).data = false ∧
    containsSub ("instrText").data
      ((processBlock (.elem "p" [] (.cons pageNumberSpan .nil)) ⟨0, []⟩).1).data = false := by
  refine ⟨by decide, by decide, by decide⟩

/-- C5 (amended).  `processRunContent` has no page-number case: the
placeholder's two spans are ordinary non-formatting elements, so the run
processor recurses through them transparently and emits the literal `#` as a
plain text run, leaving the image state untouched; the emitted run contains
no field-character markup. -/
theorem pagenumber_placeholder_plain (st : ExportSt) :
    processRunContent (.cons pageNumberSpan .nil) ⟨false, false, false⟩ st =
      ("<w:r><w:t xml:space=\"preserve\">#</w:t></w:r>", st) ∧
    containsSub ("fldChar").data
      ("<w:r><w:t xml:space=\"preserve\">#</w:t></w:r>").data = false :=
  ⟨rfl, by decide⟩

/-- C9.  Unrecognized tags are transparent containers on both codec sides:
the importer's `traverse` on an element whose local name is none of `tbl`,
`tr`, `tc`, `drawing`, `p`, `r`, `t`, `br` joins its children's traversals in
place, and the exporter's `processBlock` on an element whose lowercased tag
is none of `table`, `p`, `li` and not `h`-initial processes its children in
place; both functions are total, so no input raises an error. -/
theorem unknown_tags_transparent :
    (∀ (imageMap : List (String × String)) (nm : String)
        (attrs : List (String × String)) (kids : XNodes),
      localPart nm ∉ (["tbl", "tr", "tc", "drawing", "p", "r", "t", "br"] : List String) →
      traverse imageMap (.elem nm attrs kids) = traverseList imageMap kids) ∧
    (∀ (nm : String) (attrs : List (String × String)) (kids : XNodes) (st : ExportSt),
      jsToLower nm ∉ (["table", "p", "li"] : List String) →
      jsStartsWith (jsToLower nm) "h" = false →
      processBlock (.elem nm attrs kids) st = processBlockList kids st) := by
  constructor
  · intro imap nm attrs kids hmem
    simp only [List.mem_cons, List.not_mem_nil, not_or, or_false] at hmem
    obtain ⟨h1, h2, h3, h4, h5, h6, h7, h8⟩ := hmem
    simp only [traverse]
    rw [if_neg h1, if_neg h2, if_neg h3, if_neg h4, if_neg h5, if_neg h6, if_neg h7,
      if_neg h8]
  · intro nm attrs kids st hmem hs
    simp only [List.mem_cons, List.not_mem_nil, not_or, or_false] at hmem
    obtain ⟨h1, h2, h3⟩ := hmem
    simp only [processBlock]
    rw [if_neg h1, if_neg (by simp [h2, h3, hs])]

/-- Witness for C9: the importer passes through `w:bookmarkStart` and the
exporter passes through `section`, both transparently. -/
theorem unknown_tags_transparent_witness :
    traverse [] (.elem "w:bookmarkStart" [] (.cons (.text "x") .nil)) =
      traverseList [] (.cons (.text "x") .nil) ∧
    processBlock (.elem "section" [] (.cons (.text "x") .nil)) ⟨0, []⟩ =
      processBlockList (.cons (.text "x") .nil) ⟨0, []⟩ :=
  ⟨unknown_tags_transparent.1 [] "w:bookmarkStart" [] _ (by decide),
   unknown_tags_transparent.2 "section" [] _ ⟨0, []⟩ (by decide) (by decide)⟩

/-- C10.  The main document part always contains the fixed A4 page size
element `<w:pgSz w:w="11906" w:h="16838"/>`, for every body and every
settings argument; and the part depends on the settings only through the four
margins and the header/footer flags (equal projections give an identical
part, whatever the other fields are). -/
theorem pgsz_fixed :
    (∀ (body : XNode) (settings : Option PageSettings), ∃ p q,
      documentXml body settings = p ++ "<w:pgSz w:w=\"11906\" w:h=\"16838\"/>" ++ q) ∧
    (∀ (body : XNode) (s1 s2 : PageSettings),
      s1.marginTop = s2.marginTop → s1.marginRight = s2.marginRight →
      s1.marginBottom = s2.marginBottom → s1.marginLeft = s2.marginLeft →
      s1.hasHeader = s2.hasHeader → s1.hasFooter = s2.hasFooter →
      documentXml body (some s1) = documentXml body (some s2)) := by
  constructor
  · intro body settings
    refine ⟨"<?xml version=\"1.0\" encoding=\"UTF-8\" standalone=\"yes\"?>\n<w:document xmlns:w=\"http://schemas.openxmlformats.org/wordprocessingml/2006/main\" \n    xmlns:r=\"http://schemas.openxmlformats.org/officeDocument/2006/relationships\"\n    xmlns:wp=\"http://schemas.openxmlformats.org/drawingml/2006/wordprocessingDrawing\"\n    xmlns:a=\"http://schemas.openxmlformats.org/drawingml/2006/main\"\n    xmlns:pic=\"http://schemas.openxmlformats.org/drawingml/2006/picture\">\n  <w:body>\n    " ++
      (processBlock body ⟨0, []⟩).1 ++
      "\n    <w:sectPr>\n        " ++
      (if (settings.getD defaultMg).hasHeader then
        "<w:headerReference w:type=\"default\" r:id=\"rIdHeader\"/>" else "") ++
      "\n        " ++
      (if (settings.getD defaultMg).hasFooter then
        "<w:footerReference w:type=\"default\" r:id=\"rIdFooter\"/>" else "") ++
      "\n        ",
      "\n        <w:pgMar w:top=\"" ++
      jsIntStr (mmToTwips (settings.getD defaultMg).marginTop) ++
      "\" w:right=\"" ++
      jsIntStr (mmToTwips (settings.getD defaultMg).marginRight) ++
      "\" w:bottom=\"" ++
      jsIntStr (mmToTwips (settings.getD defaultMg).marginBottom) ++
      "\" w:left=\"" ++
      jsIntStr (mmToTwips (settings.getD defaultMg).marginLeft) ++
      "\"/>\n    </w:sectPr>\n  </w:body>\n</w:document>", ?_⟩
    simp only [documentXml, String.append_assoc]
  · intro body s1 s2 h1 h2 h3 h4 h5 h6
    simp only [documentXml, Option.getD, h1, h2, h3, h4, h5, h6]

/-- Witness for C10: a concrete body with absent settings contains the fixed
page size, and two settings differing only in first-line indent and header
text produce the identical document part. -/
theorem pgsz_fixed_witness :
    (∃ p q, documentXml (.text "x") none =
      p ++ "<w:pgSz w:w=\"11906\" w:h=\"16838\"/>" ++ q) ∧
    documentXml (.text "x")
        (some ⟨254 / 10, 254 / 10, 254 / 10, 254 / 10, 0, true, true, none, none⟩) =
      documentXml (.text "x")
        (some ⟨254 / 10, 254 / 10, 254 / 10, 254 / 10, 5, true, true, some "hello", none⟩) :=
  ⟨pgsz_fixed.1 (.text "x") none,
   pgsz_fixed.2 (.text "x") _ _ rfl rfl rfl rfl rfl rfl⟩

end Docx
